import Mathlib

/-!
# EGEN-310 Standard Deviation: `source/main.cpp`

A shallow embedding of `Pixel`, `StandardDeviation` and the homogeneity computation of `main`.

`Pixel::PrecisionT` is `double` in the source.  Here a value of that type is read exactly: it is
either a number of an ordered field `α` (the rationals for evaluation, the reals for the
theorems about `std::sqrt`), or the non-finite result (an infinity or NaN) that a division by
zero produces and that every later operation of the program propagates.  Rounding and overflow
of finite values are outside this reading.

A second embedding of the same functions, `Binary64`, reads `double` as IEEE 754 binary64,
each operation rounded to nearest with ties to even.  It is evaluated on concrete images to
show where the rounded program leaves the exact one.
-/

namespace StdDev

/-! ## Values of `Pixel::PrecisionT` -/

/-- A value of `Pixel::PrecisionT`: a number, or a non-finite value (infinity or NaN). -/
inductive PrecisionT (α : Type) where
  | finite (x : α) : PrecisionT α
  | nonfinite : PrecisionT α
deriving DecidableEq

namespace PrecisionT

variable {α : Type}

/-- Addition of two `double`s: a non-finite operand gives a non-finite sum. -/
def add [Add α] : PrecisionT α → PrecisionT α → PrecisionT α
  | finite a, finite b => finite (a + b)
  | _, _ => nonfinite

/-- Subtraction of two `double`s: a non-finite operand gives a non-finite difference. -/
def sub [Sub α] : PrecisionT α → PrecisionT α → PrecisionT α
  | finite a, finite b => finite (a - b)
  | _, _ => nonfinite

/-- Division of a `double` by an integer operand (converted to `double`): dividing a number
by zero gives an infinity or NaN, and a non-finite dividend stays non-finite. -/
def divNat [Div α] [NatCast α] : PrecisionT α → Nat → PrecisionT α
  | finite a, n => if n = 0 then nonfinite else finite (a / (n : α))
  | nonfinite, _ => nonfinite

/-- Multiplication of a `double` by an integer operand (converted to `double`). -/
def mulNat [Mul α] [NatCast α] : PrecisionT α → Nat → PrecisionT α
  | finite a, n => finite (a * (n : α))
  | nonfinite, _ => nonfinite

/-- The function `std::pow(x, n)` at a non-negative integer exponent: `pow(x, 0)` is 1 for
every `x`, and a non-finite base with a positive exponent gives a non-finite power. -/
def pow [Monoid α] : PrecisionT α → Nat → PrecisionT α
  | _, 0 => finite 1
  | finite a, n + 1 => finite (a ^ (n + 1))
  | nonfinite, _ + 1 => nonfinite

/-- The function `std::sqrt`, over the square root `sqrt` of the field: the root of a negative
number is NaN, and the root of a non-finite value is non-finite. -/
def sqrt [Zero α] [LT α] [DecidableRel (fun (a b : α) => a < b)] (sqrt : α → α) :
    PrecisionT α → PrecisionT α
  | finite a => if a < 0 then nonfinite else finite (sqrt a)
  | nonfinite => nonfinite

instance [Add α] : Add (PrecisionT α) := ⟨add⟩
instance [Sub α] : Sub (PrecisionT α) := ⟨sub⟩
instance [Div α] [NatCast α] : HDiv (PrecisionT α) Nat (PrecisionT α) := ⟨divNat⟩
instance [Mul α] [NatCast α] : HMul (PrecisionT α) Nat (PrecisionT α) := ⟨mulNat⟩

end PrecisionT

/-! ## FreeImage types -/

/-- The FreeImage colour sample `RGBQUAD`: four `BYTE` fields. -/
structure RGBQUAD where
  rgbBlue : Nat
  rgbGreen : Nat
  rgbRed : Nat
  rgbReserved : Nat
deriving DecidableEq

/-- The value `std::numeric_limits<BYTE>::max()`. -/
def FIPixelMax : Nat := 255

/-- A loaded FreeImage bitmap, as far as `StandardDeviation` reads it: the two dimensions
and the colour sample at each coordinate. -/
structure FIBITMAP where
  width : Nat
  height : Nat
  pixelColor : Nat → Nat → RGBQUAD

/-- The call `FreeImage_GetWidth(image)`. -/
def FreeImage_GetWidth (image : FIBITMAP) : Nat := image.width

/-- The call `FreeImage_GetHeight(image)`. -/
def FreeImage_GetHeight (image : FIBITMAP) : Nat := image.height

/-- The call `FreeImage_GetPixelColor(image, x, y, &fiPixel)`: the sample written to
`fiPixel`. -/
def FreeImage_GetPixelColor (image : FIBITMAP) (x y : Nat) : RGBQUAD := image.pixelColor x y

/-! ## `struct Pixel` -/

/-- The structure `Pixel`: three channels of type `PrecisionT`. -/
structure Pixel (α : Type) where
  R : PrecisionT α
  G : PrecisionT α
  B : PrecisionT α
deriving DecidableEq

namespace Pixel

open PrecisionT

variable {α : Type}

/-- The default constructor `Pixel()`. -/
def default [Zero α] : Pixel α := ⟨finite 0, finite 0, finite 0⟩

/-- The constructor `Pixel(RGBQUAD fiPixel)`. -/
def ofRGBQUAD [Div α] [NatCast α] (fiPixel : RGBQUAD) : Pixel α :=
  { R := finite (fiPixel.rgbRed : α) / FIPixelMax
    G := finite (fiPixel.rgbGreen : α) / FIPixelMax
    B := finite (fiPixel.rgbBlue : α) / FIPixelMax }

/-- The operator `operator+`. -/
def add [Add α] (lhs rhs : Pixel α) : Pixel α :=
  ⟨lhs.R + rhs.R, lhs.G + rhs.G, lhs.B + rhs.B⟩

/-- The operator `operator-`. -/
def sub [Sub α] (lhs rhs : Pixel α) : Pixel α :=
  ⟨lhs.R - rhs.R, lhs.G - rhs.G, lhs.B - rhs.B⟩

/-- The operator `operator/` at an integer right operand. -/
def div [Div α] [NatCast α] (lhs : Pixel α) (rhs : Nat) : Pixel α :=
  ⟨lhs.R / rhs, lhs.G / rhs, lhs.B / rhs⟩

/-- The operator `operator*` at an integer right operand. -/
def mul [Mul α] [NatCast α] (lhs : Pixel α) (rhs : Nat) : Pixel α :=
  ⟨lhs.R * rhs, lhs.G * rhs, lhs.B * rhs⟩

instance [Add α] : Add (Pixel α) := ⟨add⟩
instance [Sub α] : Sub (Pixel α) := ⟨sub⟩
instance [Div α] [NatCast α] : HDiv (Pixel α) Nat (Pixel α) := ⟨div⟩
instance [Mul α] [NatCast α] : HMul (Pixel α) Nat (Pixel α) := ⟨mul⟩

end Pixel

/-! ## `StandardDeviation` -/

section StandardDeviation

open PrecisionT

variable {α : Type} [LinearOrderedField α]

/-- The product `width * height` of two `unsigned` values. -/
def totalPixels (image : FIBITMAP) : Nat :=
  (FreeImage_GetWidth image * FreeImage_GetHeight image) % 2 ^ 32

/-- The body of the inner loop of pass 1 at `(x, y)`: the state is the vector `pixels` and
the accumulator `mean`. -/
def pass1Body (image : FIBITMAP) (y : Nat) (st : List RGBQUAD × Pixel α) (x : Nat) :
    List RGBQUAD × Pixel α :=
  let fiPixel := FreeImage_GetPixelColor image x y
  let pixel : Pixel α := Pixel.ofRGBQUAD fiPixel
  (st.1 ++ [fiPixel], st.2 + pixel / totalPixels image)

/-- Pass 1 of `StandardDeviation`: the two nested loops over `y` and `x`, from an empty
vector and `Pixel mean`. -/
def pass1 (image : FIBITMAP) : List RGBQUAD × Pixel α :=
  (List.range (FreeImage_GetHeight image)).foldl
    (fun st y => (List.range (FreeImage_GetWidth image)).foldl (pass1Body image y) st)
    ([], Pixel.default)

/-- The body of the loop of pass 2 for one retained sample. -/
def pass2Body (image : FIBITMAP) (mean : Pixel α) (squaredDifference : Pixel α)
    (fiPixel : RGBQUAD) : Pixel α :=
  let pixel : Pixel α := Pixel.ofRGBQUAD fiPixel
  let pixel := pixel - mean
  let pixel : Pixel α := ⟨PrecisionT.pow pixel.R 2, PrecisionT.pow pixel.G 2,
    PrecisionT.pow pixel.B 2⟩
  squaredDifference + pixel / totalPixels image

/-- Pass 2 of `StandardDeviation`: the accumulator `squaredDifference` after the loop over
`pixels`. -/
def pass2 (image : FIBITMAP) (pixels : List RGBQUAD) (mean : Pixel α) : Pixel α :=
  pixels.foldl (pass2Body image mean) Pixel.default

/-- The value of `mean` after pass 1. -/
def StandardDeviation.mean (image : FIBITMAP) : Pixel α := (pass1 image).2

/-- The value of `squaredDifference` after pass 2. -/
def StandardDeviation.squaredDifference (image : FIBITMAP) : Pixel α :=
  let st : List RGBQUAD × Pixel α := pass1 image
  pass2 image st.1 st.2

/-- The function `StandardDeviation`, over the square root `sqrt` of the field. -/
def StandardDeviation (sqrt : α → α) (image : FIBITMAP) : Pixel α :=
  let result : Pixel α := StandardDeviation.squaredDifference image
  ⟨PrecisionT.sqrt sqrt result.R, PrecisionT.sqrt sqrt result.G, PrecisionT.sqrt sqrt result.B⟩

/-- The homogeneity that `main` computes from `standardDeviation` and prints (before the
`%` suffix). -/
def homogeneity (standardDeviation : Pixel α) : PrecisionT α :=
  let homogeneity := standardDeviation.R + standardDeviation.G + standardDeviation.B
  let homogeneity := homogeneity / 3
  let homogeneity := finite 1 - homogeneity
  homogeneity * 100

end StandardDeviation

/-! ## Reference notions of the specification -/

section Reference

variable {α : Type} [LinearOrderedField α]

/-- The samples of an image, one for each coordinate `(x, y)` with `x < width` and
`y < height`, row by row. -/
def imagePixels (image : FIBITMAP) : List RGBQUAD :=
  (List.range image.height).flatMap
    (fun y => (List.range image.width).map (fun x => image.pixelColor x y))

/-- The normalised values `raw / 255` of the channel `c` of a sequence of samples. -/
def normalized (c : RGBQUAD → Nat) (pixels : List RGBQUAD) : List α :=
  pixels.map (fun q => (c q : α) / 255)

/-- The arithmetic mean `(1/N) * sum_i x_i` of `N` values. -/
def arithmeticMean (xs : List α) : α :=
  1 / (xs.length : α) * xs.sum

/-- The population variance `(1/N) * sum_i (x_i - mu)^2` of `N` values (divisor `N`). -/
def populationVariance (xs : List α) : α :=
  1 / (xs.length : α) * (xs.map (fun x => (x - arithmeticMean xs) ^ 2)).sum

/-- The sum of the values over the divisor `T`: what the accumulation of `mean` adds up to,
per channel, when `T` is not zero. -/
def meanOver (T : Nat) (xs : List α) : α :=
  xs.sum / (T : α)

/-- The sum of the squared deviations from `meanOver T xs` over the divisor `T`: what the
accumulation of `squaredDifference` adds up to, per channel, when `T` is not zero. -/
def varianceOver (T : Nat) (xs : List α) : α :=
  (xs.map (fun x => (x - meanOver T xs) ^ 2)).sum / (T : α)

/-- The normalised red values of the samples of an image. -/
def redValues (image : FIBITMAP) : List α :=
  normalized (fun q => q.rgbRed) (imagePixels image)

/-- The normalised green values of the samples of an image. -/
def greenValues (image : FIBITMAP) : List α :=
  normalized (fun q => q.rgbGreen) (imagePixels image)

/-- The normalised blue values of the samples of an image. -/
def blueValues (image : FIBITMAP) : List α :=
  normalized (fun q => q.rgbBlue) (imagePixels image)

end Reference

/-- A valid image: at least one row and one column, `width * height` below `2^32`, and
8-bit colour values at every coordinate. -/
def ValidImage (image : FIBITMAP) : Prop :=
  1 ≤ image.width ∧ 1 ≤ image.height ∧ image.width * image.height < 2 ^ 32 ∧
    ∀ x y, x < image.width → y < image.height →
      (image.pixelColor x y).rgbRed ≤ 255 ∧ (image.pixelColor x y).rgbGreen ≤ 255 ∧
        (image.pixelColor x y).rgbBlue ≤ 255

/-! ## Concrete images -/

/-- The 2x1 image of the specification's scenario: pure red, then black. -/
def redBlackImage : FIBITMAP :=
  ⟨2, 1, fun x _ => if x = 0 then ⟨0, 0, 255, 0⟩ else ⟨0, 0, 0, 0⟩⟩

/-- A white image of 65536 x 65537 samples: `width * height` is `2^32 + 2^16`. -/
def wideWhiteImage : FIBITMAP :=
  ⟨65536, 65537, fun _ _ => ⟨255, 255, 255, 0⟩⟩

/-- A uniform image of 2 x 2 samples, each `(10, 20, 30)`. -/
def uniformImage : FIBITMAP :=
  ⟨2, 2, fun _ _ => ⟨30, 20, 10, 0⟩⟩

/-- The image without samples: 0 x 0. -/
def emptyImage : FIBITMAP :=
  ⟨0, 0, fun _ _ => ⟨0, 0, 0, 0⟩⟩

/-- An image of height 3 and width 0. -/
def zeroWidthImage : FIBITMAP :=
  ⟨0, 3, fun _ _ => ⟨7, 7, 7, 0⟩⟩

/-- An image of width 5 and height 0. -/
def zeroHeightImage : FIBITMAP :=
  ⟨5, 0, fun _ _ => ⟨9, 9, 9, 0⟩⟩

/-- A black image of 65536 x 65536 samples: `width * height` is `2^32`. -/
def squareBlackImage : FIBITMAP :=
  ⟨65536, 65536, fun _ _ => ⟨0, 0, 0, 0⟩⟩

/-- A uniform image of 65537 x 65536 samples, each `(51, 51, 51)`. -/
def tallGrayImage : FIBITMAP :=
  ⟨65537, 65536, fun _ _ => ⟨51, 51, 51, 0⟩⟩

/-- The white sample followed by the black sample: 2 x 1. -/
def whiteBlackImage : FIBITMAP :=
  ⟨2, 1, fun x _ => if x = 0 then ⟨255, 255, 255, 0⟩ else ⟨0, 0, 0, 0⟩⟩

/-- The 2x1 image black, then pure red: the samples of `redBlackImage` in the other order. -/
def blackRedImage : FIBITMAP :=
  ⟨2, 1, fun x _ => if x = 0 then ⟨0, 0, 0, 0⟩ else ⟨0, 0, 255, 0⟩⟩

/-- An image of 3 x 2 samples that differ at every coordinate. -/
def gradientImage : FIBITMAP :=
  ⟨3, 2, fun x y => ⟨x, y, 10 * y + x, 0⟩⟩

/-! ## The order of the coordinates -/

/-- The coordinates `(x, y)` in the order of the nested loops of pass 1: `y` outer,
`x` inner. -/
def coordinates (width height : Nat) : List (Nat × Nat) :=
  (List.range height).flatMap (fun y => (List.range width).map (fun x => (x, y)))

/-! ## `main` -/

section Main

variable {α : Type} [LinearOrderedField α]

/-- The value `EXIT_FAILURE`. -/
def EXIT_FAILURE : Nat := 1

/-- The line that `main` writes to `std::cerr` when no path is given. -/
def usageMessage : String := "No path to image given, please use as: path_to_image"

/-- The two FreeImage calls of `main` that read the file: the file type for a path, and
the bitmap loaded for a format and a path, null (`none`) when the file cannot be loaded. -/
structure Loader where
  getFileType : String → Int
  load : Int → String → Option FIBITMAP

/-- What a run of `main` does, in order: it writes a line to `std::cerr`, calls `std::exit`,
calls `FreeImage_GetFileType`, `FreeImage_Load`, `StandardDeviation` and `FreeImage_Unload`
(with the handle passed, `none` for null), and writes the standard deviation and the
homogeneity percentage to `std::cout`. -/
inductive Action (α : Type) where
  | cerr (line : String) : Action α
  | exit (status : Nat) : Action α
  | getFileType (path : String) : Action α
  | load (format : Int) (path : String) : Action α
  | standardDeviation (image : Option FIBITMAP) : Action α
  | unload (image : Option FIBITMAP) : Action α
  | coutStandardDeviation (pixel : Pixel α) : Action α
  | coutHomogeneity (percent : PrecisionT α) : Action α

/-- The function `main` on the arguments `argv` (`argc` is their number): the actions of the
run and its exit status.  What `StandardDeviation` returns for a null handle is decided by
the FreeImage accessors and is the parameter `ofNull`. -/
def main (sqrt : α → α) (env : Loader) (ofNull : Pixel α) (argv : List String) :
    List (Action α) × Nat :=
  let argc := argv.length
  if argc < 2 then
    ([Action.cerr usageMessage, Action.exit EXIT_FAILURE], EXIT_FAILURE)
  else
    let path := argv.getD 1 ""
    let format := env.getFileType path
    let image := env.load format path
    let standardDeviation : Pixel α :=
      match image with
      | some bitmap => StandardDeviation sqrt bitmap
      | none => ofNull
    ([Action.getFileType path, Action.load format path, Action.standardDeviation image,
      Action.unload image, Action.coutStandardDeviation standardDeviation,
      Action.coutHomogeneity (homogeneity standardDeviation)], 0)

/-- A loader for which no file can be loaded. -/
def failingLoader : Loader := ⟨fun _ => -1, fun _ _ => none⟩

/-- A loader that loads the image red, black for every path. -/
def redBlackLoader : Loader := ⟨fun _ => 0, fun _ _ => some redBlackImage⟩

end Main

/-- The uniform 3x1 image of the samples `(200, 200, 200)`. -/
def grayTripleImage : FIBITMAP :=
  ⟨3, 1, fun _ _ => ⟨200, 200, 200, 0⟩⟩

/-- The white image of 9 x 1 samples. -/
def whiteNineImage : FIBITMAP :=
  ⟨9, 1, fun _ _ => ⟨255, 255, 255, 0⟩⟩

/-- The 2x1 image of the gray samples `(1, 1, 1)` and `(36, 36, 36)`. -/
def darkPairImage : FIBITMAP :=
  ⟨2, 1, fun x _ => if x = 0 then ⟨1, 1, 1, 0⟩ else ⟨36, 36, 36, 0⟩⟩

/-! ## The same program with `double` as IEEE 754 binary64

The definitions above read `double` exactly.  The definitions of this part read it as the
machine does: every operation computes the exact result and rounds it to the nearest binary64
number, ties to even, with overflow to an infinity and gradual underflow.  The sign of a zero
is not represented; in this program it could only show in the printed text.
-/

namespace Binary64

/-- A value of `double`: the finite number `m * 2^e`, an infinity, or NaN.  The operations
below return finite values with `m` odd, or `m = 0` and `e = 0`. -/
inductive Double where
  | finite (m : Int) (e : Int) : Double
  | inf (negative : Bool) : Double
  | nan : Double
deriving DecidableEq

namespace Double

/-- The loop of `bitLength`: the least `k` from the start value on with `n < 2^k`. -/
def bitLengthLoop (n : Nat) : Nat → Nat → Nat
  | 0, k => k
  | fuel + 1, k => if n < 2 ^ k then k else bitLengthLoop n fuel (k + 1)

/-- The number of binary digits of `n`: the least `k` with `n < 2^k` (`k ≤ n`, so the fuel
`n` is never used up). -/
def bitLength (n : Nat) : Nat := bitLengthLoop n n 0

/-- The number of zero bits at the low end of `n > 0`. -/
def trailingZeros (n : Nat) : Nat := bitLength (n ^^^ (n - 1)) - 1

/-- The finite value `± n * 2^e` with an odd significand. -/
def canonical (negative : Bool) (n : Nat) (e : Int) : Double :=
  if n = 0 then finite 0 0
  else
    let t := trailingZeros n
    let m : Int := (n / 2 ^ t : Nat)
    finite (if negative then -m else m) (e + t)

/-- The value `± n * 2^e` of at most 53 significant bits, or the infinity when it is `2^1024`
or more. -/
def pack (negative : Bool) (n : Nat) (e : Int) : Double :=
  if n ≠ 0 ∧ 1024 < (bitLength n : Int) + e then inf negative else canonical negative n e

/-- Rounding of the exact value `± n * 2^e` to binary64: to the nearest number with 53
significant bits and a unit in the last place of at least `2^-1074`, ties to the even
significand. -/
def round (negative : Bool) (n : Nat) (e : Int) : Double :=
  if n = 0 then finite 0 0
  else
    let bits : Int := (bitLength n : Nat)
    let target : Int := if e + bits - 53 < -1074 then -1074 else e + bits - 53
    if target ≤ e then pack negative n e
    else
      let shift := (target - e).toNat
      let q := n / 2 ^ shift
      let r := n % 2 ^ shift
      let half := 2 ^ (shift - 1)
      let up : Bool := decide (half < r) || (decide (r = half) && decide (q % 2 = 1))
      pack negative (if up then q + 1 else q) target

/-- The conversion of an unsigned integer to `double`. -/
def ofNat (n : Nat) : Double := round false n 0

/-- The negation of a `double`. -/
def neg : Double → Double
  | finite m e => finite (-m) e
  | inf s => inf (!s)
  | nan => nan

/-- The sum of two `double`s: the exact sum, rounded. -/
def add : Double → Double → Double
  | finite m1 e1, finite m2 e2 =>
    let e := if e1 ≤ e2 then e1 else e2
    let m : Int := m1 * 2 ^ (e1 - e).toNat + m2 * 2 ^ (e2 - e).toNat
    round (decide (m < 0)) m.natAbs e
  | finite _ _, inf s => inf s
  | inf s, finite _ _ => inf s
  | inf s1, inf s2 => if s1 = s2 then inf s1 else nan
  | _, _ => nan

/-- The difference of two `double`s. -/
def sub (a b : Double) : Double := add a (neg b)

/-- The product of two `double`s: the exact product, rounded. -/
def mul : Double → Double → Double
  | finite m1 e1, finite m2 e2 => round (decide (m1 * m2 < 0)) (m1 * m2).natAbs (e1 + e2)
  | finite m _, inf s => if m = 0 then nan else inf (decide (m < 0) != s)
  | inf s, finite m _ => if m = 0 then nan else inf (decide (m < 0) != s)
  | inf s1, inf s2 => inf (s1 != s2)
  | _, _ => nan

/-- The quotient of two `double`s: the exact quotient, rounded (65 or more quotient bits and
a sticky bit decide the rounding); a non-zero number over zero is an infinity, zero over zero
is NaN. -/
def div : Double → Double → Double
  | finite m1 e1, finite m2 e2 =>
    if m2 = 0 then (if m1 = 0 then nan else inf (decide (m1 < 0)))
    else
      let k := bitLength m2.natAbs + 64
      let num := m1.natAbs * 2 ^ k
      let q := num / m2.natAbs
      let sticky := if num % m2.natAbs = 0 then 0 else 1
      round (decide (m1 < 0) != decide (m2 < 0)) (2 * q + sticky) (e1 - e2 - k - 1)
  | finite _ _, inf _ => finite 0 0
  | inf s, finite m _ => inf (s != decide (m < 0))
  | _, _ => nan

/-- The loop of `isqrt`: the bits of the root from bit `i - 1` down. -/
def isqrtLoop (n : Nat) : Nat → Nat → Nat
  | 0, r => r
  | i + 1, r =>
    if (r + 2 ^ i) * (r + 2 ^ i) ≤ n then isqrtLoop n i (r + 2 ^ i) else isqrtLoop n i r

/-- The integer square root of `n`. -/
def isqrt (n : Nat) : Nat := isqrtLoop n (bitLength n / 2 + 1) 0

/-- The function `std::sqrt`: the exact root, rounded (65 or more root bits and a sticky bit
decide the rounding); the root of a negative number is NaN. -/
def sqrt : Double → Double
  | finite m e =>
    if m < 0 then nan
    else
      let sh : Int := 130 + e % 2
      let n := m.natAbs * 2 ^ sh.toNat
      let s := isqrt n
      let sticky := if s * s = n then 0 else 1
      round false (2 * s + sticky) ((e - sh) / 2 - 1)
  | inf s => if s then nan else inf false
  | nan => nan

/-- The function `std::pow(x, n)` at a non-negative integer exponent, as the exact power,
rounded; for `n = 2`, the only exponent of the program, this is the rounded product
`x * x`. -/
def pow : Double → Nat → Double
  | _, 0 => finite 1 0
  | finite m e, n + 1 =>
    round (decide (m ^ (n + 1) < 0)) (m ^ (n + 1)).natAbs (e * (n + 1 : Nat))
  | inf s, n + 1 => inf (s && decide (n % 2 = 0))
  | nan, _ + 1 => nan

/-- The comparison `a <= b` of two `double`s; false when an operand is NaN. -/
def le : Double → Double → Bool
  | finite m1 e1, finite m2 e2 =>
    let e := if e1 ≤ e2 then e1 else e2
    decide (m1 * 2 ^ (e1 - e).toNat ≤ m2 * 2 ^ (e2 - e).toNat)
  | finite _ _, inf s => !s
  | inf s, finite _ _ => s
  | inf s1, inf s2 => s1 || !s2
  | _, _ => false

end Double

instance : Add Double := ⟨Double.add⟩
instance : Sub Double := ⟨Double.sub⟩
instance : HDiv Double Nat Double := ⟨fun a n => Double.div a (Double.ofNat n)⟩
instance : HMul Double Nat Double := ⟨fun a n => Double.mul a (Double.ofNat n)⟩

/-- The structure `Pixel` with `PrecisionT = double` as binary64. -/
structure Pixel where
  R : Double
  G : Double
  B : Double
deriving DecidableEq

namespace Pixel

/-- The default constructor `Pixel()`. -/
def default : Pixel := ⟨Double.ofNat 0, Double.ofNat 0, Double.ofNat 0⟩

/-- The constructor `Pixel(RGBQUAD fiPixel)`. -/
def ofRGBQUAD (fiPixel : RGBQUAD) : Pixel :=
  { R := Double.ofNat fiPixel.rgbRed / FIPixelMax
    G := Double.ofNat fiPixel.rgbGreen / FIPixelMax
    B := Double.ofNat fiPixel.rgbBlue / FIPixelMax }

/-- The operator `operator+`. -/
def add (lhs rhs : Pixel) : Pixel :=
  ⟨lhs.R + rhs.R, lhs.G + rhs.G, lhs.B + rhs.B⟩

/-- The operator `operator-`. -/
def sub (lhs rhs : Pixel) : Pixel :=
  ⟨lhs.R - rhs.R, lhs.G - rhs.G, lhs.B - rhs.B⟩

/-- The operator `operator/` at an integer right operand. -/
def div (lhs : Pixel) (rhs : Nat) : Pixel :=
  ⟨lhs.R / rhs, lhs.G / rhs, lhs.B / rhs⟩

/-- The operator `operator*` at an integer right operand. -/
def mul (lhs : Pixel) (rhs : Nat) : Pixel :=
  ⟨lhs.R * rhs, lhs.G * rhs, lhs.B * rhs⟩

instance : Add Pixel := ⟨add⟩
instance : Sub Pixel := ⟨sub⟩
instance : HDiv Pixel Nat Pixel := ⟨div⟩
instance : HMul Pixel Nat Pixel := ⟨mul⟩

end Pixel

/-- The body of the inner loop of pass 1 at `(x, y)`. -/
def pass1Body (image : FIBITMAP) (y : Nat) (st : List RGBQUAD × Pixel) (x : Nat) :
    List RGBQUAD × Pixel :=
  let fiPixel := FreeImage_GetPixelColor image x y
  let pixel : Pixel := Pixel.ofRGBQUAD fiPixel
  (st.1 ++ [fiPixel], st.2 + pixel / totalPixels image)

/-- Pass 1 of `StandardDeviation`: the two nested loops over `y` and `x`. -/
def pass1 (image : FIBITMAP) : List RGBQUAD × Pixel :=
  (List.range (FreeImage_GetHeight image)).foldl
    (fun st y => (List.range (FreeImage_GetWidth image)).foldl (pass1Body image y) st)
    ([], Pixel.default)

/-- The body of the loop of pass 2 for one retained sample. -/
def pass2Body (image : FIBITMAP) (mean : Pixel) (squaredDifference : Pixel)
    (fiPixel : RGBQUAD) : Pixel :=
  let pixel : Pixel := Pixel.ofRGBQUAD fiPixel
  let pixel := pixel - mean
  let pixel : Pixel := ⟨Double.pow pixel.R 2, Double.pow pixel.G 2, Double.pow pixel.B 2⟩
  squaredDifference + pixel / totalPixels image

/-- Pass 2 of `StandardDeviation`: the accumulator `squaredDifference` after the loop. -/
def pass2 (image : FIBITMAP) (pixels : List RGBQUAD) (mean : Pixel) : Pixel :=
  pixels.foldl (pass2Body image mean) Pixel.default

/-- The value of `mean` after pass 1. -/
def StandardDeviation.mean (image : FIBITMAP) : Pixel := (pass1 image).2

/-- The value of `squaredDifference` after pass 2. -/
def StandardDeviation.squaredDifference (image : FIBITMAP) : Pixel :=
  let st := pass1 image
  pass2 image st.1 st.2

/-- The function `StandardDeviation`. -/
def StandardDeviation (image : FIBITMAP) : Pixel :=
  let result : Pixel := StandardDeviation.squaredDifference image
  ⟨Double.sqrt result.R, Double.sqrt result.G, Double.sqrt result.B⟩

/-- The homogeneity that `main` computes from `standardDeviation` and prints. -/
def homogeneity (standardDeviation : Pixel) : Double :=
  let homogeneity := standardDeviation.R + standardDeviation.G + standardDeviation.B
  let homogeneity := homogeneity / 3
  let homogeneity := Double.ofNat 1 - homogeneity
  homogeneity * 100

end Binary64

/-! ## Arithmetic of `PrecisionT` -/

namespace PrecisionT

variable {α : Type}

@[simp] theorem finite_add_finite [Add α] (a b : α) :
    (finite a + finite b : PrecisionT α) = finite (a + b) := rfl

@[simp] theorem nonfinite_add [Add α] (x : PrecisionT α) : nonfinite + x = nonfinite := by
  cases x <;> rfl

@[simp] theorem add_nonfinite [Add α] (x : PrecisionT α) : x + nonfinite = nonfinite := by
  cases x <;> rfl

@[simp] theorem finite_sub_finite [Sub α] (a b : α) :
    (finite a - finite b : PrecisionT α) = finite (a - b) := rfl

@[simp] theorem nonfinite_sub [Sub α] (x : PrecisionT α) : nonfinite - x = nonfinite := by
  cases x <;> rfl

@[simp] theorem sub_nonfinite [Sub α] (x : PrecisionT α) : x - nonfinite = nonfinite := by
  cases x <;> rfl

theorem finite_div [Div α] [NatCast α] (a : α) (n : Nat) :
    (finite a / n : PrecisionT α) = if n = 0 then nonfinite else finite (a / (n : α)) := rfl

@[simp] theorem finite_div_zero [Div α] [NatCast α] (a : α) :
    (finite a / (0 : Nat) : PrecisionT α) = nonfinite := rfl

theorem finite_div_of_ne [Div α] [NatCast α] (a : α) {n : Nat} (h : n ≠ 0) :
    (finite a / n : PrecisionT α) = finite (a / (n : α)) := by
  rw [finite_div, if_neg h]

@[simp] theorem nonfinite_div [Div α] [NatCast α] (n : Nat) :
    (nonfinite : PrecisionT α) / n = nonfinite := rfl

@[simp] theorem div_zero_eq [Div α] [NatCast α] (x : PrecisionT α) :
    x / (0 : Nat) = nonfinite := by
  cases x <;> rfl

@[simp] theorem finite_mul [Mul α] [NatCast α] (a : α) (n : Nat) :
    (finite a * n : PrecisionT α) = finite (a * (n : α)) := rfl

@[simp] theorem nonfinite_mul [Mul α] [NatCast α] (n : Nat) :
    (nonfinite : PrecisionT α) * n = nonfinite := rfl

@[simp] theorem pow_finite_two [Monoid α] (a : α) :
    PrecisionT.pow (finite a) 2 = finite (a ^ 2) := rfl

@[simp] theorem pow_nonfinite_two [Monoid α] :
    PrecisionT.pow (nonfinite : PrecisionT α) 2 = nonfinite := rfl

@[simp] theorem sqrt_nonfinite [Zero α] [LT α] [DecidableRel (fun (a b : α) => a < b)]
    (f : α → α) : PrecisionT.sqrt f (nonfinite : PrecisionT α) = nonfinite := rfl

theorem sqrt_finite_of_nonneg {α : Type} [LinearOrderedField α] (f : α → α) {a : α}
    (h : 0 ≤ a) : PrecisionT.sqrt f (finite a) = finite (f a) := by
  simp [PrecisionT.sqrt, not_lt.mpr h]

end PrecisionT

/-! ## `Pixel` arithmetic, channel by channel -/

namespace Pixel

open PrecisionT

variable {α : Type}

@[simp] theorem add_R [Add α] (p q : Pixel α) : (p + q).R = p.R + q.R := rfl
@[simp] theorem add_G [Add α] (p q : Pixel α) : (p + q).G = p.G + q.G := rfl
@[simp] theorem add_B [Add α] (p q : Pixel α) : (p + q).B = p.B + q.B := rfl
@[simp] theorem sub_R [Sub α] (p q : Pixel α) : (p - q).R = p.R - q.R := rfl
@[simp] theorem sub_G [Sub α] (p q : Pixel α) : (p - q).G = p.G - q.G := rfl
@[simp] theorem sub_B [Sub α] (p q : Pixel α) : (p - q).B = p.B - q.B := rfl
@[simp] theorem div_R [Div α] [NatCast α] (p : Pixel α) (n : Nat) : (p / n).R = p.R / n := rfl
@[simp] theorem div_G [Div α] [NatCast α] (p : Pixel α) (n : Nat) : (p / n).G = p.G / n := rfl
@[simp] theorem div_B [Div α] [NatCast α] (p : Pixel α) (n : Nat) : (p / n).B = p.B / n := rfl

theorem add_def [Add α] (p q : Pixel α) :
    p + q = ⟨p.R + q.R, p.G + q.G, p.B + q.B⟩ := rfl

theorem sub_def [Sub α] (p q : Pixel α) :
    p - q = ⟨p.R - q.R, p.G - q.G, p.B - q.B⟩ := rfl

theorem div_def [Div α] [NatCast α] (p : Pixel α) (n : Nat) :
    p / n = ⟨p.R / n, p.G / n, p.B / n⟩ := rfl

/-- The constructor from a raw sample divides each colour byte by 255. -/
theorem ofRGBQUAD_eq [DivisionRing α] (q : RGBQUAD) :
    (ofRGBQUAD q : Pixel α) =
      ⟨finite ((q.rgbRed : α) / 255), finite ((q.rgbGreen : α) / 255),
        finite ((q.rgbBlue : α) / 255)⟩ := by
  simp [ofRGBQUAD, finite_div, FIPixelMax]

end Pixel

/-! ## The loops of `StandardDeviation` as folds over the samples -/

section Loops

open PrecisionT

variable {α : Type} [LinearOrderedField α]

theorem length_imagePixels (image : FIBITMAP) :
    (imagePixels image).length = image.height * image.width := by
  simp [imagePixels, List.length_flatMap, Function.comp_def]

theorem imagePixels_eq_nil_of_zero (image : FIBITMAP)
    (h : image.width = 0 ∨ image.height = 0) : imagePixels image = [] := by
  apply List.eq_nil_of_length_eq_zero
  rw [length_imagePixels]
  rcases h with h | h <;> simp [h]

theorem imagePixels_ne_nil (image : FIBITMAP) (hw : 0 < image.width)
    (hh : 0 < image.height) : imagePixels image ≠ [] := by
  intro h
  have hlen := length_imagePixels image
  rw [h] at hlen
  have : 0 < image.height * image.width := Nat.mul_pos hh hw
  simp at hlen
  omega

/-- The inner loop of pass 1 appends the samples of row `y` to `pixels` and accumulates
them into `mean`. -/
theorem foldl_pass1Body (image : FIBITMAP) (y : Nat) (xs : List Nat)
    (st : List RGBQUAD × Pixel α) :
    xs.foldl (pass1Body image y) st =
      (st.1 ++ xs.map (fun x => image.pixelColor x y),
        (xs.map (fun x => image.pixelColor x y)).foldl
          (fun m q => m + (Pixel.ofRGBQUAD q : Pixel α) / totalPixels image) st.2) := by
  induction xs generalizing st with
  | nil => simp
  | cons x xs ih => simp [ih, pass1Body, FreeImage_GetPixelColor]

/-- The nested loops of pass 1 over the rows `ys`. -/
theorem foldl_rows (image : FIBITMAP) (ys : List Nat) (st : List RGBQUAD × Pixel α) :
    ys.foldl (fun st y => (List.range (FreeImage_GetWidth image)).foldl (pass1Body image y) st)
        st =
      (st.1 ++ ys.flatMap
          (fun y => (List.range image.width).map (fun x => image.pixelColor x y)),
        (ys.flatMap
          (fun y => (List.range image.width).map (fun x => image.pixelColor x y))).foldl
          (fun m q => m + (Pixel.ofRGBQUAD q : Pixel α) / totalPixels image) st.2) := by
  induction ys generalizing st with
  | nil => simp
  | cons y ys ih =>
    rw [List.foldl_cons, ih, foldl_pass1Body]
    simp [List.flatMap_cons, List.foldl_append, FreeImage_GetWidth]

/-- Pass 1 retains the samples of the image and folds them into `mean`. -/
theorem pass1_eq (image : FIBITMAP) :
    (pass1 image : List RGBQUAD × Pixel α) =
      (imagePixels image,
        (imagePixels image).foldl
          (fun m q => m + (Pixel.ofRGBQUAD q : Pixel α) / totalPixels image)
          Pixel.default) := by
  unfold pass1
  rw [foldl_rows]
  simp [imagePixels, FreeImage_GetHeight]

/-- One step of the accumulation of `mean` with a non-zero divisor. -/
theorem mean_step_finite {T : Nat} (hT : T ≠ 0) (q : RGBQUAD) (a b c : α) :
    (⟨finite a, finite b, finite c⟩ : Pixel α) + (Pixel.ofRGBQUAD q : Pixel α) / T =
      ⟨finite (a + (q.rgbRed : α) / 255 / T), finite (b + (q.rgbGreen : α) / 255 / T),
        finite (c + (q.rgbBlue : α) / 255 / T)⟩ := by
  simp only [Pixel.ofRGBQUAD_eq, Pixel.div_def, Pixel.add_def, finite_div_of_ne _ hT,
    finite_add_finite]

/-- One step of the accumulation of `squaredDifference` with a non-zero divisor and a
finite `mean`. -/
theorem sq_step_finite (image : FIBITMAP) (hT : totalPixels image ≠ 0) (mr mg mb : α)
    (q : RGBQUAD) (a b c : α) :
    pass2Body image ⟨finite mr, finite mg, finite mb⟩ ⟨finite a, finite b, finite c⟩ q =
      ⟨finite (a + ((q.rgbRed : α) / 255 - mr) ^ 2 / totalPixels image),
        finite (b + ((q.rgbGreen : α) / 255 - mg) ^ 2 / totalPixels image),
        finite (c + ((q.rgbBlue : α) / 255 - mb) ^ 2 / totalPixels image)⟩ := by
  simp only [pass2Body, Pixel.ofRGBQUAD_eq, Pixel.div_def, Pixel.add_def, Pixel.sub_def,
    finite_sub_finite, pow_finite_two, finite_div_of_ne _ hT, finite_add_finite]

/-- With a non-zero divisor the accumulation of `mean` stays finite and adds, per channel,
the sum of the normalised samples over the divisor. -/
theorem foldl_mean_finite {T : Nat} (hT : T ≠ 0) (l : List RGBQUAD) (a b c : α) :
    l.foldl (fun m q => m + (Pixel.ofRGBQUAD q : Pixel α) / T)
        ⟨finite a, finite b, finite c⟩ =
      ⟨finite (a + (normalized (fun q => q.rgbRed) l).sum / T),
        finite (b + (normalized (fun q => q.rgbGreen) l).sum / T),
        finite (c + (normalized (fun q => q.rgbBlue) l).sum / T)⟩ := by
  induction l generalizing a b c with
  | nil => simp [normalized]
  | cons q l ih =>
    rw [List.foldl_cons, mean_step_finite hT, ih]
    simp only [normalized, List.map_cons, List.sum_cons]
    congr 2 <;> ring

/-- With a non-zero divisor and a finite `mean` the accumulation of `squaredDifference`
stays finite and adds, per channel, the sum of the squared deviations over the divisor. -/
theorem foldl_sq_finite (image : FIBITMAP) (hT : totalPixels image ≠ 0) (mr mg mb : α)
    (l : List RGBQUAD) (a b c : α) :
    l.foldl (pass2Body image ⟨finite mr, finite mg, finite mb⟩)
        ⟨finite a, finite b, finite c⟩ =
      ⟨finite (a + ((normalized (fun q => q.rgbRed) l).map
            (fun x => (x - mr) ^ 2)).sum / totalPixels image),
        finite (b + ((normalized (fun q => q.rgbGreen) l).map
            (fun x => (x - mg) ^ 2)).sum / totalPixels image),
        finite (c + ((normalized (fun q => q.rgbBlue) l).map
            (fun x => (x - mb) ^ 2)).sum / totalPixels image)⟩ := by
  induction l generalizing a b c with
  | nil => simp [normalized]
  | cons q l ih =>
    rw [List.foldl_cons, sq_step_finite image hT, ih]
    simp only [normalized, List.map_cons, List.sum_cons]
    congr 2 <;> ring

/-- A division by zero in the accumulation of `mean` makes every channel non-finite. -/
theorem foldl_mean_nonfinite (l : List RGBQUAD) (hl : l ≠ []) (m : Pixel α) :
    l.foldl (fun m q => m + (Pixel.ofRGBQUAD q : Pixel α) / 0) m =
      ⟨nonfinite, nonfinite, nonfinite⟩ := by
  have hstay : ∀ l : List RGBQUAD,
      l.foldl (fun m q => m + (Pixel.ofRGBQUAD q : Pixel α) / 0)
        ⟨nonfinite, nonfinite, nonfinite⟩ = ⟨nonfinite, nonfinite, nonfinite⟩ := by
    intro l
    induction l with
    | nil => rfl
    | cons q l ih => simpa [Pixel.add_def, Pixel.div_def] using ih
  cases l with
  | nil => exact absurd rfl hl
  | cons q l => simpa [Pixel.add_def, Pixel.div_def] using hstay l

/-- A division by zero in the accumulation of `squaredDifference` makes every channel
non-finite. -/
theorem foldl_sq_nonfinite (image : FIBITMAP) (hT : totalPixels image = 0)
    (l : List RGBQUAD) (hl : l ≠ []) (mean m : Pixel α) :
    l.foldl (pass2Body image mean) m = ⟨nonfinite, nonfinite, nonfinite⟩ := by
  have hstay : ∀ l : List RGBQUAD,
      l.foldl (pass2Body image mean) ⟨nonfinite, nonfinite, nonfinite⟩ =
        ⟨nonfinite, nonfinite, nonfinite⟩ := by
    intro l
    induction l with
    | nil => rfl
    | cons q l ih => simpa [pass2Body, hT, Pixel.add_def, Pixel.div_def] using ih
  cases l with
  | nil => exact absurd rfl hl
  | cons q l => simpa [pass2Body, hT, Pixel.add_def, Pixel.div_def] using hstay l

end Loops

/-! ## `mean`, `squaredDifference` and the result in closed form -/

section ClosedForm

open PrecisionT

variable {α : Type} [LinearOrderedField α]

theorem totalPixels_eq (image : FIBITMAP) (h : image.width * image.height < 2 ^ 32) :
    totalPixels image = image.width * image.height := by
  unfold totalPixels FreeImage_GetWidth FreeImage_GetHeight
  exact Nat.mod_eq_of_lt h

theorem length_normalized (c : RGBQUAD → Nat) (l : List RGBQUAD) :
    (normalized c l : List α).length = l.length := by
  simp [normalized]

/-- The value of `mean` after pass 1 when the divisor is not zero. -/
theorem mean_of_totalPixels_ne_zero (image : FIBITMAP) (hT : totalPixels image ≠ 0) :
    (StandardDeviation.mean image : Pixel α) =
      ⟨finite (meanOver (totalPixels image) (redValues image)),
        finite (meanOver (totalPixels image) (greenValues image)),
        finite (meanOver (totalPixels image) (blueValues image))⟩ := by
  simp only [StandardDeviation.mean, pass1_eq, Pixel.default]
  rw [foldl_mean_finite hT]
  simp [meanOver, redValues, greenValues, blueValues]

/-- The value of `squaredDifference` after pass 2 when the divisor is not zero. -/
theorem squaredDifference_of_totalPixels_ne_zero (image : FIBITMAP)
    (hT : totalPixels image ≠ 0) :
    (StandardDeviation.squaredDifference image : Pixel α) =
      ⟨finite (varianceOver (totalPixels image) (redValues image)),
        finite (varianceOver (totalPixels image) (greenValues image)),
        finite (varianceOver (totalPixels image) (blueValues image))⟩ := by
  have hm : (pass1 image : List RGBQUAD × Pixel α).2 = _ :=
    mean_of_totalPixels_ne_zero image hT
  simp only [StandardDeviation.squaredDifference, pass2, hm, Pixel.default]
  rw [pass1_eq]
  simp only []
  rw [foldl_sq_finite image hT]
  simp [varianceOver, redValues, greenValues, blueValues]

/-- The accumulated squared deviation is not negative. -/
theorem varianceOver_nonneg (T : Nat) (xs : List α) : 0 ≤ varianceOver T xs := by
  unfold varianceOver
  apply div_nonneg
  · apply List.sum_nonneg
    intro y hy
    rcases List.mem_map.mp hy with ⟨x, _, rfl⟩
    exact sq_nonneg _
  · exact Nat.cast_nonneg T

/-- The result of `StandardDeviation` when the divisor is not zero: the square root of each
channel of `squaredDifference`. -/
theorem StandardDeviation_of_totalPixels_ne_zero (sqrt : α → α) (image : FIBITMAP)
    (hT : totalPixels image ≠ 0) :
    StandardDeviation sqrt image =
      ⟨finite (sqrt (varianceOver (totalPixels image) (redValues image))),
        finite (sqrt (varianceOver (totalPixels image) (greenValues image))),
        finite (sqrt (varianceOver (totalPixels image) (blueValues image)))⟩ := by
  simp only [StandardDeviation, squaredDifference_of_totalPixels_ne_zero image hT,
    sqrt_finite_of_nonneg sqrt (varianceOver_nonneg _ _)]

/-- For an image without wrap-around of `width * height` the divisor is the number of
samples. -/
theorem totalPixels_eq_length (image : FIBITMAP) (h : image.width * image.height < 2 ^ 32) :
    totalPixels image = (imagePixels image).length := by
  rw [totalPixels_eq image h, length_imagePixels, Nat.mul_comm]

/-- The sum over the divisor is the arithmetic mean when the divisor is the number of
values. -/
theorem meanOver_eq_arithmeticMean (xs : List α) (T : Nat) (h : T = xs.length) :
    meanOver T xs = arithmeticMean xs := by
  subst h
  simp [arithmeticMean, meanOver, div_eq_inv_mul]

/-- The sum of squared deviations over the divisor is the population variance when the
divisor is the number of values. -/
theorem varianceOver_eq_populationVariance (xs : List α) (T : Nat) (h : T = xs.length) :
    varianceOver T xs = populationVariance xs := by
  unfold varianceOver
  rw [meanOver_eq_arithmeticMean xs T h]
  subst h
  simp [populationVariance, div_eq_inv_mul]

end ClosedForm

/-! ## Images whose samples agree in a channel -/

section Uniform

open PrecisionT

variable {α : Type} [LinearOrderedField α]

theorem mem_imagePixels (image : FIBITMAP) (q : RGBQUAD) :
    q ∈ imagePixels image ↔
      ∃ y, y < image.height ∧ ∃ x, x < image.width ∧ image.pixelColor x y = q := by
  simp [imagePixels, List.mem_flatMap]

/-- When every sample has the value `v` in channel `c`, the normalised values of the channel
are `v / 255`, once per sample. -/
theorem normalized_of_uniform (c : RGBQUAD → Nat) (l : List RGBQUAD) (v : Nat)
    (h : ∀ q ∈ l, c q = v) :
    (normalized c l : List α) = List.replicate l.length ((v : α) / 255) := by
  induction l with
  | nil => rfl
  | cons q l ih =>
    have hq : c q = v := h q (List.mem_cons_self q l)
    have hl : ∀ q ∈ l, c q = v := fun q hq => h q (List.mem_cons_of_mem _ hq)
    have ih2 := ih hl
    simp only [normalized] at ih2
    simp [normalized, hq, ih2, List.replicate_succ]

/-- The normalised values of a channel in which all samples of the image agree. -/
theorem normalized_imagePixels_of_uniform (c : RGBQUAD → Nat) (image : FIBITMAP) (v : Nat)
    (h : ∀ x y, x < image.width → y < image.height → c (image.pixelColor x y) = v) :
    (normalized c (imagePixels image) : List α) =
      List.replicate (image.height * image.width) ((v : α) / 255) := by
  rw [normalized_of_uniform c _ v, length_imagePixels]
  intro q hq
  rcases (mem_imagePixels _ _).mp hq with ⟨y, hy, x, hx, rfl⟩
  exact h x y hx hy

theorem meanOver_replicate (T n : Nat) (v : α) :
    meanOver T (List.replicate n v) = (n : α) * v / (T : α) := by
  simp [meanOver, List.sum_replicate]

theorem varianceOver_replicate (T n : Nat) (v : α) :
    varianceOver T (List.replicate n v) =
      (n : α) * (v - (n : α) * v / (T : α)) ^ 2 / (T : α) := by
  simp [varianceOver, meanOver, List.sum_replicate, List.map_replicate]

theorem validImage_redBlackImage : ValidImage redBlackImage := by
  refine ⟨by decide, by decide, by decide, ?_⟩
  intro x y _ _
  simp only [redBlackImage]
  split <;> decide

theorem totalPixels_ne_zero_of_valid (image : FIBITMAP) (h : ValidImage image) :
    totalPixels image ≠ 0 := by
  obtain ⟨hw, hh, hlt, _⟩ := h
  rw [totalPixels_eq image hlt]
  exact Nat.mul_ne_zero (by omega) (by omega)

/-- The normalised values of 8-bit samples lie in `[0, 1]`. -/
theorem normalized_bounds (c : RGBQUAD → Nat) (l : List RGBQUAD) (h : ∀ q ∈ l, c q ≤ 255) :
    ∀ x ∈ (normalized c l : List α), 0 ≤ x ∧ x ≤ 1 := by
  intro x hx
  rcases List.mem_map.mp hx with ⟨q, hq, rfl⟩
  have hc : ((c q : Nat) : α) ≤ 255 := by exact_mod_cast h q hq
  constructor
  · positivity
  · rw [div_le_one (by norm_num)]
    exact hc

/-- The mean of values of `[0, 1]` lies in `[0, 1]`. -/
theorem meanOver_bounds (xs : List α) (T : Nat) (hT : T = xs.length) (hpos : T ≠ 0)
    (h : ∀ x ∈ xs, 0 ≤ x ∧ x ≤ 1) : 0 ≤ meanOver T xs ∧ meanOver T xs ≤ 1 := by
  have hTpos : (0 : α) < (T : α) := by exact_mod_cast Nat.pos_of_ne_zero hpos
  unfold meanOver
  constructor
  · exact div_nonneg (List.sum_nonneg (fun x hx => (h x hx).1)) hTpos.le
  · rw [div_le_one hTpos]
    have := List.sum_le_card_nsmul xs 1 (fun x hx => (h x hx).2)
    simpa [hT] using this

theorem imagePixels_two_by_one (f : Nat → Nat → RGBQUAD) :
    imagePixels ⟨2, 1, f⟩ = [f 0 0, f 1 0] := by
  simp [imagePixels, List.range_succ]

theorem totalPixels_two_by_one (f : Nat → Nat → RGBQUAD) : totalPixels ⟨2, 1, f⟩ = 2 := rfl

theorem meanOver_pair (a b : α) : meanOver 2 [a / 255, b / 255] = (a + b) / 510 := by
  simp only [meanOver, List.sum_cons, List.sum_nil]
  push_cast
  ring

theorem varianceOver_pair (a b : α) :
    varianceOver 2 [a / 255, b / 255] = ((a - b) / 510) ^ 2 := by
  simp only [varianceOver, meanOver, List.map_cons, List.map_nil, List.sum_cons, List.sum_nil]
  push_cast
  ring

/-- The homogeneity of a `Pixel` with finite channels. -/
theorem homogeneity_finite (r g b : α) :
    homogeneity (⟨finite r, finite g, finite b⟩ : Pixel α) =
      finite ((1 - (r + g + b) / 3) * 100) := by
  simp [homogeneity, finite_div]

/-- Closed form of `mean` and of the result for an image whose samples all have the raw
values `(r, g, b)`, for any non-zero divisor. -/
theorem uniform_closed_form (sqrt : α → α) (image : FIBITMAP) (r g b : Nat)
    (hT : totalPixels image ≠ 0)
    (huni : ∀ x y, x < image.width → y < image.height →
      (image.pixelColor x y).rgbRed = r ∧ (image.pixelColor x y).rgbGreen = g ∧
        (image.pixelColor x y).rgbBlue = b) :
    (StandardDeviation.mean image : Pixel α) =
        ⟨finite (meanOver (totalPixels image)
            (List.replicate (image.height * image.width) ((r : α) / 255))),
          finite (meanOver (totalPixels image)
            (List.replicate (image.height * image.width) ((g : α) / 255))),
          finite (meanOver (totalPixels image)
            (List.replicate (image.height * image.width) ((b : α) / 255)))⟩ ∧
      StandardDeviation sqrt image =
        ⟨finite (sqrt (varianceOver (totalPixels image)
            (List.replicate (image.height * image.width) ((r : α) / 255)))),
          finite (sqrt (varianceOver (totalPixels image)
            (List.replicate (image.height * image.width) ((g : α) / 255)))),
          finite (sqrt (varianceOver (totalPixels image)
            (List.replicate (image.height * image.width) ((b : α) / 255))))⟩ := by
  have hR : (redValues image : List α) = _ :=
    normalized_imagePixels_of_uniform _ image r (fun x y hx hy => (huni x y hx hy).1)
  have hG : (greenValues image : List α) = _ :=
    normalized_imagePixels_of_uniform _ image g (fun x y hx hy => (huni x y hx hy).2.1)
  have hB : (blueValues image : List α) = _ :=
    normalized_imagePixels_of_uniform _ image b (fun x y hx hy => (huni x y hx hy).2.2)
  rw [mean_of_totalPixels_ne_zero image hT, StandardDeviation_of_totalPixels_ne_zero sqrt image hT,
    hR, hG, hB]
  exact ⟨rfl, rfl⟩

/-- An image without samples: neither loop body runs, `mean` and `squaredDifference` keep
their initial value and the result is the square root of 0 in each channel. -/
theorem zero_area_closed_form (sqrt : α → α) (image : FIBITMAP)
    (h : image.width = 0 ∨ image.height = 0) :
    (pass1 image : List RGBQUAD × Pixel α) = ([], Pixel.default) ∧
      (StandardDeviation.squaredDifference image : Pixel α) = Pixel.default ∧
      StandardDeviation sqrt image = ⟨finite (sqrt 0), finite (sqrt 0), finite (sqrt 0)⟩ := by
  have hp : (pass1 image : List RGBQUAD × Pixel α) = ([], Pixel.default) := by
    rw [pass1_eq, imagePixels_eq_nil_of_zero image h]
    rfl
  have hs : (StandardDeviation.squaredDifference image : Pixel α) = Pixel.default := by
    simp only [StandardDeviation.squaredDifference, hp, pass2, List.foldl_nil]
  refine ⟨hp, hs, ?_⟩
  simp only [StandardDeviation, hs, Pixel.default, sqrt_finite_of_nonneg sqrt (le_refl (0 : α))]

/-- An image with samples and divisor 0: every `pixel / totalPixels` is a division by zero,
and `mean` and the result are non-finite in every channel. -/
theorem wrapped_to_zero_closed_form (sqrt : α → α) (image : FIBITMAP)
    (hT : totalPixels image = 0) (hw : 0 < image.width) (hh : 0 < image.height) :
    (StandardDeviation.mean image : Pixel α) = ⟨nonfinite, nonfinite, nonfinite⟩ ∧
      StandardDeviation sqrt image = ⟨nonfinite, nonfinite, nonfinite⟩ := by
  have hne := imagePixels_ne_nil image hw hh
  have hm : (StandardDeviation.mean image : Pixel α) = ⟨nonfinite, nonfinite, nonfinite⟩ := by
    simp only [StandardDeviation.mean, pass1_eq, hT]
    exact foldl_mean_nonfinite _ hne _
  refine ⟨hm, ?_⟩
  have hs : (StandardDeviation.squaredDifference image : Pixel α) =
      ⟨nonfinite, nonfinite, nonfinite⟩ := by
    simp only [StandardDeviation.squaredDifference, pass2]
    rw [pass1_eq]
    exact foldl_sq_nonfinite image hT _ hne _ _
  simp only [StandardDeviation, hs, sqrt_nonfinite]

end Uniform

/-! ## Claims -/

section Claims

open PrecisionT

/-- C1: for every image with `N = width * height` samples, `1 ≤ N < 2^32`, each channel of
the `Pixel` returned by `StandardDeviation` is the population standard deviation of that
channel, `sqrt ((1/N) * sum_i (x_i - mu)^2)` with `x_i = raw_i / 255` and
`mu = (1/N) * sum_i x_i`, over the reals; each channel has `N` values. -/
theorem StandardDeviation_eq_population_stddev (image : FIBITMAP)
    (hN : 1 ≤ image.width * image.height) (hlt : image.width * image.height < 2 ^ 32) :
    (imagePixels image).length = image.width * image.height ∧
      StandardDeviation Real.sqrt image =
        ⟨finite (Real.sqrt (populationVariance (redValues image))),
          finite (Real.sqrt (populationVariance (greenValues image))),
          finite (Real.sqrt (populationVariance (blueValues image)))⟩ := by
  have hT : totalPixels image ≠ 0 := by
    rw [totalPixels_eq image hlt]
    omega
  have hlen := totalPixels_eq_length image hlt
  refine ⟨by rw [length_imagePixels, Nat.mul_comm], ?_⟩
  rw [StandardDeviation_of_totalPixels_ne_zero Real.sqrt image hT,
    varianceOver_eq_populationVariance (redValues image) _
      (by rw [redValues, length_normalized, hlen]),
    varianceOver_eq_populationVariance (greenValues image) _
      (by rw [greenValues, length_normalized, hlen]),
    varianceOver_eq_populationVariance (blueValues image) _
      (by rw [blueValues, length_normalized, hlen])]

/-- Witness of C1 at the 2x1 image red, black. -/
theorem StandardDeviation_eq_population_stddev_witness :
    1 ≤ redBlackImage.width * redBlackImage.height ∧
      redBlackImage.width * redBlackImage.height < 2 ^ 32 ∧
      (imagePixels redBlackImage).length = redBlackImage.width * redBlackImage.height ∧
      StandardDeviation Real.sqrt redBlackImage =
        ⟨finite (Real.sqrt (populationVariance (redValues redBlackImage))),
          finite (Real.sqrt (populationVariance (greenValues redBlackImage))),
          finite (Real.sqrt (populationVariance (blueValues redBlackImage)))⟩ :=
  ⟨by decide, by decide,
    StandardDeviation_eq_population_stddev redBlackImage (by decide) (by decide)⟩

/-- C2, as amended: for every image with `N = width * height` samples and `1 ≤ N < 2^32`,
the value of `mean` after pass 1, accumulated as `mean += pixel / totalPixels`, is per
channel the sum of the normalised samples divided by `N`, which is their arithmetic mean. -/
theorem mean_eq_arithmeticMean {α : Type} [LinearOrderedField α] (image : FIBITMAP)
    (hN : 1 ≤ image.width * image.height) (hlt : image.width * image.height < 2 ^ 32) :
    (StandardDeviation.mean image : Pixel α) =
        ⟨finite ((redValues image).sum / ((image.width * image.height : Nat) : α)),
          finite ((greenValues image).sum / ((image.width * image.height : Nat) : α)),
          finite ((blueValues image).sum / ((image.width * image.height : Nat) : α))⟩ ∧
      (StandardDeviation.mean image : Pixel α) =
        ⟨finite (arithmeticMean (redValues image)), finite (arithmeticMean (greenValues image)),
          finite (arithmeticMean (blueValues image))⟩ := by
  have hT : totalPixels image ≠ 0 := by
    rw [totalPixels_eq image hlt]
    omega
  have hlen := totalPixels_eq_length image hlt
  have hmean := mean_of_totalPixels_ne_zero (α := α) image hT
  constructor
  · rw [hmean, totalPixels_eq image hlt]
    rfl
  · rw [hmean,
      meanOver_eq_arithmeticMean (redValues image) _
        (by rw [redValues, length_normalized, hlen]),
      meanOver_eq_arithmeticMean (greenValues image) _
        (by rw [greenValues, length_normalized, hlen]),
      meanOver_eq_arithmeticMean (blueValues image) _
        (by rw [blueValues, length_normalized, hlen])]

/-- Witness of C2 (amended) at the 2x1 image red, black, over the rationals. -/
theorem mean_eq_arithmeticMean_witness :
    1 ≤ redBlackImage.width * redBlackImage.height ∧
      redBlackImage.width * redBlackImage.height < 2 ^ 32 ∧
      (StandardDeviation.mean redBlackImage : Pixel ℚ) =
        ⟨finite ((redValues redBlackImage).sum
            / ((redBlackImage.width * redBlackImage.height : Nat) : ℚ)),
          finite ((greenValues redBlackImage).sum
            / ((redBlackImage.width * redBlackImage.height : Nat) : ℚ)),
          finite ((blueValues redBlackImage).sum
            / ((redBlackImage.width * redBlackImage.height : Nat) : ℚ))⟩ ∧
      (StandardDeviation.mean redBlackImage : Pixel ℚ) =
        ⟨finite (arithmeticMean (redValues redBlackImage)),
          finite (arithmeticMean (greenValues redBlackImage)),
          finite (arithmeticMean (blueValues redBlackImage))⟩ :=
  ⟨by decide, by decide, mean_eq_arithmeticMean redBlackImage (by decide) (by decide)⟩

/-- C2, counterexample: the white image of 65536 x 65537 samples has `N = 2^32 + 2^16 ≥ 1`
samples, the divisor `totalPixels` wraps to 65536, and `mean` comes out as 65537 in every
channel, while the arithmetic mean of the normalised samples, `(sum_i raw_i / 255) / N`,
is 1. -/
theorem mean_ne_arithmeticMean_wideWhiteImage :
    1 ≤ wideWhiteImage.width * wideWhiteImage.height ∧
      totalPixels wideWhiteImage = 65536 ∧
      (StandardDeviation.mean wideWhiteImage : Pixel ℝ) =
        ⟨finite 65537, finite 65537, finite 65537⟩ ∧
      (redValues wideWhiteImage : List ℝ).sum
        / ((wideWhiteImage.width * wideWhiteImage.height : Nat) : ℝ) = 1 ∧
      arithmeticMean (redValues wideWhiteImage : List ℝ) = 1 ∧
      (StandardDeviation.mean wideWhiteImage : Pixel ℝ).R ≠
        finite ((redValues wideWhiteImage : List ℝ).sum
          / ((wideWhiteImage.width * wideWhiteImage.height : Nat) : ℝ)) := by
  have hT : totalPixels wideWhiteImage = 65536 := by decide
  have hR : (redValues wideWhiteImage : List ℝ) = List.replicate (65537 * 65536) (255 / 255) :=
    normalized_imagePixels_of_uniform _ wideWhiteImage 255 (fun _ _ _ _ => rfl)
  have hG : (greenValues wideWhiteImage : List ℝ)
      = List.replicate (65537 * 65536) (255 / 255) :=
    normalized_imagePixels_of_uniform _ wideWhiteImage 255 (fun _ _ _ _ => rfl)
  have hB : (blueValues wideWhiteImage : List ℝ)
      = List.replicate (65537 * 65536) (255 / 255) :=
    normalized_imagePixels_of_uniform _ wideWhiteImage 255 (fun _ _ _ _ => rfl)
  have hN : ((wideWhiteImage.width * wideWhiteImage.height : Nat) : ℝ) = 65536 * 65537 := by
    norm_num [wideWhiteImage]
  have hmean : (StandardDeviation.mean wideWhiteImage : Pixel ℝ) =
      ⟨finite 65537, finite 65537, finite 65537⟩ := by
    rw [mean_of_totalPixels_ne_zero wideWhiteImage (by rw [hT]; decide), hT, hR, hG, hB,
      meanOver_replicate]
    norm_num
  have hsum : (redValues wideWhiteImage : List ℝ).sum
      / ((wideWhiteImage.width * wideWhiteImage.height : Nat) : ℝ) = 1 := by
    rw [hR, hN, List.sum_replicate]
    norm_num
  refine ⟨by decide, hT, hmean, hsum, ?_, ?_⟩
  · rw [arithmeticMean, hR, List.sum_replicate, List.length_replicate]
    norm_num
  · rw [hmean, hsum]
    simp only [ne_eq, finite.injEq]
    norm_num

/-- C3, as amended: over exact arithmetic (the reals), for every non-empty image with
`width * height < 2^32` in which every sample has the same raw values `(r, g, b)`, `mean` is
`(r/255, g/255, b/255)`, the result of `StandardDeviation` is `(0, 0, 0)` and the homogeneity
derived from it is exactly 100. -/
theorem StandardDeviation_of_uniform (image : FIBITMAP) (r g b : Nat)
    (hN : 1 ≤ image.width * image.height) (hlt : image.width * image.height < 2 ^ 32)
    (huni : ∀ x y, x < image.width → y < image.height →
      (image.pixelColor x y).rgbRed = r ∧ (image.pixelColor x y).rgbGreen = g ∧
        (image.pixelColor x y).rgbBlue = b) :
    (StandardDeviation.mean image : Pixel ℝ) =
        ⟨finite ((r : ℝ) / 255), finite ((g : ℝ) / 255), finite ((b : ℝ) / 255)⟩ ∧
      StandardDeviation Real.sqrt image = ⟨finite 0, finite 0, finite 0⟩ ∧
      homogeneity (StandardDeviation Real.sqrt image) = finite 100 := by
  have hT : totalPixels image = image.height * image.width := by
    rw [totalPixels_eq image hlt, Nat.mul_comm]
  have hT0 : totalPixels image ≠ 0 := by
    rw [totalPixels_eq image hlt]
    omega
  have hn : ((image.height * image.width : Nat) : ℝ) ≠ 0 := by
    rw [← hT]
    exact_mod_cast hT0
  have hmean : ∀ v : ℝ, meanOver (totalPixels image)
      (List.replicate (image.height * image.width) v) = v := by
    intro v
    rw [meanOver_replicate, hT]
    exact mul_div_cancel_left₀ v hn
  have hvar : ∀ v : ℝ, varianceOver (totalPixels image)
      (List.replicate (image.height * image.width) v) = 0 := by
    intro v
    have h := hmean v
    rw [meanOver_replicate] at h
    rw [varianceOver_replicate, h]
    simp
  obtain ⟨h1, h2⟩ := uniform_closed_form Real.sqrt image r g b hT0 huni
  have hsd : StandardDeviation Real.sqrt image = ⟨finite 0, finite 0, finite 0⟩ := by
    rw [h2]
    simp only [hvar, Real.sqrt_zero]
  refine ⟨?_, hsd, ?_⟩
  · rw [h1]
    simp only [hmean]
  · rw [hsd, homogeneity_finite]
    norm_num

/-- Witness of C3 (amended) at the 2x2 image whose samples are all `(10, 20, 30)`. -/
theorem StandardDeviation_of_uniform_witness :
    1 ≤ uniformImage.width * uniformImage.height ∧
      uniformImage.width * uniformImage.height < 2 ^ 32 ∧
      (∀ x y, x < uniformImage.width → y < uniformImage.height →
        (uniformImage.pixelColor x y).rgbRed = 10 ∧
          (uniformImage.pixelColor x y).rgbGreen = 20 ∧
          (uniformImage.pixelColor x y).rgbBlue = 30) ∧
      (StandardDeviation.mean uniformImage : Pixel ℝ) =
        ⟨finite (((10 : Nat) : ℝ) / 255), finite (((20 : Nat) : ℝ) / 255),
          finite (((30 : Nat) : ℝ) / 255)⟩ ∧
      StandardDeviation Real.sqrt uniformImage = ⟨finite 0, finite 0, finite 0⟩ ∧
      homogeneity (StandardDeviation Real.sqrt uniformImage) = finite 100 :=
  ⟨by decide, by decide, fun _ _ _ _ => ⟨rfl, rfl, rfl⟩,
    StandardDeviation_of_uniform uniformImage 10 20 30 (by decide) (by decide)
      (fun _ _ _ _ => ⟨rfl, rfl, rfl⟩)⟩

/-- Over exact arithmetic the image of 65537 x 65536 samples, all `(51, 51, 51)`, is
non-empty and uniform, yet `mean` is `65537/5` per channel instead of `51/255`, the result of
`StandardDeviation` is not `(0, 0, 0)` and the homogeneity is not 100: the divisor
`totalPixels` wraps to 65536. -/
theorem tallGrayImage_not_homogeneous :
    1 ≤ tallGrayImage.width * tallGrayImage.height ∧
      (∀ x y, tallGrayImage.pixelColor x y = ⟨51, 51, 51, 0⟩) ∧
      (StandardDeviation.mean tallGrayImage : Pixel ℝ) =
        ⟨finite (65537 / 5), finite (65537 / 5), finite (65537 / 5)⟩ ∧
      (StandardDeviation.mean tallGrayImage : Pixel ℝ) ≠
        ⟨finite (51 / 255), finite (51 / 255), finite (51 / 255)⟩ ∧
      StandardDeviation Real.sqrt tallGrayImage ≠ ⟨finite 0, finite 0, finite 0⟩ ∧
      homogeneity (StandardDeviation Real.sqrt tallGrayImage) ≠ finite 100 := by
  have hT : totalPixels tallGrayImage = 65536 := by decide
  have hT0 : totalPixels tallGrayImage ≠ 0 := by rw [hT]; decide
  obtain ⟨h1, h2⟩ := uniform_closed_form Real.sqrt tallGrayImage 51 51 51 hT0
    (fun _ _ _ _ => ⟨rfl, rfl, rfl⟩)
  have hdim : tallGrayImage.height * tallGrayImage.width = 65536 * 65537 := by decide
  have hmean : meanOver (totalPixels tallGrayImage)
      (List.replicate (tallGrayImage.height * tallGrayImage.width) (((51 : Nat) : ℝ) / 255))
        = 65537 / 5 := by
    rw [meanOver_replicate, hT, hdim]
    norm_num
  have hvar : varianceOver (totalPixels tallGrayImage)
      (List.replicate (tallGrayImage.height * tallGrayImage.width) (((51 : Nat) : ℝ) / 255))
        = 65537 * (65536 / 5) ^ 2 := by
    rw [varianceOver_replicate, hT, hdim]
    norm_num
  have hs : 0 < Real.sqrt (65537 * (65536 / 5) ^ 2) := Real.sqrt_pos.mpr (by norm_num)
  rw [hmean] at h1
  rw [hvar] at h2
  refine ⟨by decide, fun _ _ => rfl, h1, ?_, ?_, ?_⟩
  · rw [h1]
    simp only [ne_eq, Pixel.mk.injEq, finite.injEq]
    norm_num
  · rw [h2]
    simp only [ne_eq, Pixel.mk.injEq, finite.injEq, not_and]
    intro h
    exact absurd h (ne_of_gt hs)
  · rw [h2, homogeneity_finite]
    simp only [ne_eq, finite.injEq]
    intro h
    have : Real.sqrt (65537 * (65536 / 5) ^ 2) = 0 := by linarith
    exact absurd this (ne_of_gt hs)

/-- C4, as amended: for every image with `width = 0` or `height = 0` the computation raises
no error: `StandardDeviation` returns the `Pixel` `(0, 0, 0)`. -/
theorem StandardDeviation_zero_area_returns (image : FIBITMAP)
    (h : image.width = 0 ∨ image.height = 0) :
    StandardDeviation Real.sqrt image = ⟨finite 0, finite 0, finite 0⟩ := by
  rw [(zero_area_closed_form Real.sqrt image h).2.2, Real.sqrt_zero]

/-- Witness of C4 (amended) at the image of width 0 and height 3. -/
theorem StandardDeviation_zero_area_returns_witness :
    (zeroWidthImage.width = 0 ∨ zeroWidthImage.height = 0) ∧
      StandardDeviation Real.sqrt zeroWidthImage = ⟨finite 0, finite 0, finite 0⟩ :=
  ⟨Or.inl rfl, StandardDeviation_zero_area_returns zeroWidthImage (Or.inl rfl)⟩

/-- C4, counterexample: for the 0 x 0 image `StandardDeviation` returns a statistics
`Pixel`, `(0, 0, 0)` with three finite channels, and signals nothing. -/
theorem StandardDeviation_emptyImage :
    emptyImage.width * emptyImage.height = 0 ∧
      StandardDeviation Real.sqrt emptyImage = ⟨finite 0, finite 0, finite 0⟩ := by
  refine ⟨rfl, ?_⟩
  rw [(zero_area_closed_form Real.sqrt emptyImage (Or.inl rfl)).2.2, Real.sqrt_zero]

/-- C5, as amended: whenever `totalPixels == 0` although `width ≥ 1` and `height ≥ 1` (the
32-bit product wrapped to 0), each `pixel / totalPixels` is a division by zero with three
non-finite channels, and every channel of the accumulated `mean` and of the returned
standard deviation is non-finite. -/
theorem nonfinite_of_totalPixels_zero {α : Type} [LinearOrderedField α] (sqrt : α → α)
    (image : FIBITMAP) (hT : totalPixels image = 0) (hw : 1 ≤ image.width)
    (hh : 1 ≤ image.height) :
    (∀ pixel : Pixel α, pixel / totalPixels image = ⟨nonfinite, nonfinite, nonfinite⟩) ∧
      (StandardDeviation.mean image : Pixel α) = ⟨nonfinite, nonfinite, nonfinite⟩ ∧
      StandardDeviation sqrt image = ⟨nonfinite, nonfinite, nonfinite⟩ := by
  refine ⟨?_, wrapped_to_zero_closed_form sqrt image hT hw hh⟩
  intro pixel
  rw [hT, Pixel.div_def]
  simp

/-- Witness of C5 (amended) at the black image of 65536 x 65536 samples. -/
theorem nonfinite_of_totalPixels_zero_witness :
    totalPixels squareBlackImage = 0 ∧ 1 ≤ squareBlackImage.width ∧
      1 ≤ squareBlackImage.height ∧
      (∀ pixel : Pixel ℝ,
        pixel / totalPixels squareBlackImage = ⟨nonfinite, nonfinite, nonfinite⟩) ∧
      (StandardDeviation.mean squareBlackImage : Pixel ℝ) =
        ⟨nonfinite, nonfinite, nonfinite⟩ ∧
      StandardDeviation Real.sqrt squareBlackImage = ⟨nonfinite, nonfinite, nonfinite⟩ :=
  ⟨by decide, by decide, by decide,
    nonfinite_of_totalPixels_zero Real.sqrt squareBlackImage (by decide) (by decide)
      (by decide)⟩

/-- C5, counterexample: the image of width 5 and height 0 has `totalPixels == 0`, yet no
division is performed: `mean` and the returned standard deviation are `(0, 0, 0)`, finite in
every channel. -/
theorem finite_of_zeroHeightImage :
    totalPixels zeroHeightImage = 0 ∧
      (StandardDeviation.mean zeroHeightImage : Pixel ℝ) = ⟨finite 0, finite 0, finite 0⟩ ∧
      StandardDeviation Real.sqrt zeroHeightImage = ⟨finite 0, finite 0, finite 0⟩ := by
  obtain ⟨h1, _, h3⟩ := zero_area_closed_form Real.sqrt zeroHeightImage (Or.inr rfl)
  refine ⟨by decide, ?_, ?_⟩
  · simp only [StandardDeviation.mean, h1, Pixel.default]
  · rw [h3, Real.sqrt_zero]

/-- C6: for every standard-deviation `Pixel` `s`, the homogeneity that `main` computes is
`(1 - (s.R + s.G + s.B) / 3) * 100`: for finite channels it is that number, without clamping
to `[0, 100]` (it is -200 at `(3, 3, 3)` and 200 at `(-1, -1, -1)`), and with a non-finite
channel it is non-finite. -/
theorem homogeneity_eq_formula {α : Type} [LinearOrderedField α] :
    (∀ r g b : α, homogeneity (⟨finite r, finite g, finite b⟩ : Pixel α) =
        finite ((1 - (r + g + b) / 3) * 100)) ∧
      (∀ g b : PrecisionT α, homogeneity (⟨nonfinite, g, b⟩ : Pixel α) = nonfinite) ∧
      (∀ r b : PrecisionT α, homogeneity (⟨r, nonfinite, b⟩ : Pixel α) = nonfinite) ∧
      (∀ r g : PrecisionT α, homogeneity (⟨r, g, nonfinite⟩ : Pixel α) = nonfinite) ∧
      homogeneity (⟨finite 3, finite 3, finite 3⟩ : Pixel α) = finite (-200) ∧
      homogeneity (⟨finite (-1), finite (-1), finite (-1)⟩ : Pixel α) = finite 200 := by
  refine ⟨homogeneity_finite, ?_, ?_, ?_, ?_, ?_⟩
  · intro g b
    simp [homogeneity]
  · intro r b
    simp [homogeneity]
  · intro r g
    simp [homogeneity]
  · rw [homogeneity_finite]
    norm_num
  · rw [homogeneity_finite]
    norm_num

/-- C7, as amended: over exact arithmetic (every ordered field), for every valid image
(`width, height ≥ 1`, `width * height < 2^32`, raw channels in `[0, 255]`) each channel of the
`mean` computed in pass 1 is a number of `[0, 1]`. -/
theorem mean_mem_unit_interval {α : Type} [LinearOrderedField α] (image : FIBITMAP)
    (hvalid : ValidImage image) :
    ∃ r g b : α, (StandardDeviation.mean image : Pixel α) = ⟨finite r, finite g, finite b⟩ ∧
      (0 ≤ r ∧ r ≤ 1) ∧ (0 ≤ g ∧ g ≤ 1) ∧ (0 ≤ b ∧ b ≤ 1) := by
  have hT0 := totalPixels_ne_zero_of_valid image hvalid
  obtain ⟨_, _, hlt, hbyte⟩ := hvalid
  have hlen := totalPixels_eq_length image hlt
  have hmem : ∀ q ∈ imagePixels image, q.rgbRed ≤ 255 ∧ q.rgbGreen ≤ 255 ∧ q.rgbBlue ≤ 255 := by
    intro q hq
    rcases (mem_imagePixels _ _).mp hq with ⟨y, hy, x, hx, rfl⟩
    exact hbyte x y hx hy
  refine ⟨_, _, _, mean_of_totalPixels_ne_zero image hT0, ?_, ?_, ?_⟩
  · exact meanOver_bounds _ _ (by rw [redValues, length_normalized, hlen]) hT0
      (normalized_bounds _ _ (fun q hq => (hmem q hq).1))
  · exact meanOver_bounds _ _ (by rw [greenValues, length_normalized, hlen]) hT0
      (normalized_bounds _ _ (fun q hq => (hmem q hq).2.1))
  · exact meanOver_bounds _ _ (by rw [blueValues, length_normalized, hlen]) hT0
      (normalized_bounds _ _ (fun q hq => (hmem q hq).2.2))

/-- Witness of C7 (amended) at the 2x1 image red, black, over the rationals. -/
theorem mean_mem_unit_interval_witness :
    ValidImage redBlackImage ∧
      ∃ r g b : ℚ,
        (StandardDeviation.mean redBlackImage : Pixel ℚ) = ⟨finite r, finite g, finite b⟩ ∧
          (0 ≤ r ∧ r ≤ 1) ∧ (0 ≤ g ∧ g ≤ 1) ∧ (0 ≤ b ∧ b ≤ 1) :=
  ⟨validImage_redBlackImage, mean_mem_unit_interval redBlackImage validImage_redBlackImage⟩

/-- C8: for every valid image the accumulator `squaredDifference` is a non-negative number in
every channel, the `Pixel` returned by `StandardDeviation` is its square root channel by
channel, and each channel of the returned `Pixel` is a number `≥ 0`. -/
theorem StandardDeviation_nonneg (image : FIBITMAP) (hvalid : ValidImage image) :
    ∃ a b c : ℝ,
      (StandardDeviation.squaredDifference image : Pixel ℝ) = ⟨finite a, finite b, finite c⟩ ∧
        (0 ≤ a ∧ 0 ≤ b ∧ 0 ≤ c) ∧
        StandardDeviation Real.sqrt image =
          ⟨finite (Real.sqrt a), finite (Real.sqrt b), finite (Real.sqrt c)⟩ ∧
        (0 ≤ Real.sqrt a ∧ 0 ≤ Real.sqrt b ∧ 0 ≤ Real.sqrt c) := by
  have hT0 := totalPixels_ne_zero_of_valid image hvalid
  exact ⟨_, _, _, squaredDifference_of_totalPixels_ne_zero image hT0,
    ⟨varianceOver_nonneg _ _, varianceOver_nonneg _ _, varianceOver_nonneg _ _⟩,
    StandardDeviation_of_totalPixels_ne_zero Real.sqrt image hT0,
    ⟨Real.sqrt_nonneg _, Real.sqrt_nonneg _, Real.sqrt_nonneg _⟩⟩

/-- Witness of C8 at the 2x1 image red, black. -/
theorem StandardDeviation_nonneg_witness :
    ValidImage redBlackImage ∧
      ∃ a b c : ℝ,
        (StandardDeviation.squaredDifference redBlackImage : Pixel ℝ) =
            ⟨finite a, finite b, finite c⟩ ∧
          (0 ≤ a ∧ 0 ≤ b ∧ 0 ≤ c) ∧
          StandardDeviation Real.sqrt redBlackImage =
            ⟨finite (Real.sqrt a), finite (Real.sqrt b), finite (Real.sqrt c)⟩ ∧
          (0 ≤ Real.sqrt a ∧ 0 ≤ Real.sqrt b ∧ 0 ≤ Real.sqrt c) :=
  ⟨validImage_redBlackImage, StandardDeviation_nonneg redBlackImage validImage_redBlackImage⟩

/-- C9, as amended: over exact arithmetic (the reals), for every 2x1 image with raw samples
`p` (at `x = 0`) and `q` (at `x = 1`), per channel `mean` is `(p + q) / 510` and the returned
standard deviation is `|p - q| / 510`; for `p = (255, 0, 0)` and `q = (0, 0, 0)` the mean is
`(1/2, 0, 0)`, the standard deviation is `(1/2, 0, 0)` and the homogeneity is `250/3`. -/
theorem StandardDeviation_two_pixels :
    (∀ f : Nat → Nat → RGBQUAD,
        (StandardDeviation.mean (FIBITMAP.mk 2 1 f) : Pixel ℝ) =
            ⟨finite ((((f 0 0).rgbRed : ℝ) + (f 1 0).rgbRed) / 510),
              finite ((((f 0 0).rgbGreen : ℝ) + (f 1 0).rgbGreen) / 510),
              finite ((((f 0 0).rgbBlue : ℝ) + (f 1 0).rgbBlue) / 510)⟩ ∧
          StandardDeviation Real.sqrt (FIBITMAP.mk 2 1 f) =
            ⟨finite (|((f 0 0).rgbRed : ℝ) - (f 1 0).rgbRed| / 510),
              finite (|((f 0 0).rgbGreen : ℝ) - (f 1 0).rgbGreen| / 510),
              finite (|((f 0 0).rgbBlue : ℝ) - (f 1 0).rgbBlue| / 510)⟩) ∧
      (StandardDeviation.mean redBlackImage : Pixel ℝ) = ⟨finite (1 / 2), finite 0, finite 0⟩ ∧
      StandardDeviation Real.sqrt redBlackImage = ⟨finite (1 / 2), finite 0, finite 0⟩ ∧
      homogeneity (StandardDeviation Real.sqrt redBlackImage) = finite (250 / 3) := by
  have hroot : ∀ a b : ℝ, Real.sqrt (((a - b) / 510) ^ 2) = |a - b| / 510 := by
    intro a b
    rw [Real.sqrt_sq_eq_abs, abs_div, abs_of_pos (by norm_num : (0 : ℝ) < 510)]
  have hgen : ∀ f : Nat → Nat → RGBQUAD,
      (StandardDeviation.mean (FIBITMAP.mk 2 1 f) : Pixel ℝ) =
          ⟨finite ((((f 0 0).rgbRed : ℝ) + (f 1 0).rgbRed) / 510),
            finite ((((f 0 0).rgbGreen : ℝ) + (f 1 0).rgbGreen) / 510),
            finite ((((f 0 0).rgbBlue : ℝ) + (f 1 0).rgbBlue) / 510)⟩ ∧
        StandardDeviation Real.sqrt (FIBITMAP.mk 2 1 f) =
          ⟨finite (|((f 0 0).rgbRed : ℝ) - (f 1 0).rgbRed| / 510),
            finite (|((f 0 0).rgbGreen : ℝ) - (f 1 0).rgbGreen| / 510),
            finite (|((f 0 0).rgbBlue : ℝ) - (f 1 0).rgbBlue| / 510)⟩ := by
    intro f
    have hT0 : totalPixels ⟨2, 1, f⟩ ≠ 0 := by
      rw [totalPixels_two_by_one]
      decide
    rw [mean_of_totalPixels_ne_zero _ hT0, StandardDeviation_of_totalPixels_ne_zero _ _ hT0]
    simp only [redValues, greenValues, blueValues, imagePixels_two_by_one, normalized,
      List.map_cons, List.map_nil, totalPixels_two_by_one, meanOver_pair, varianceOver_pair,
      hroot, and_self]
  obtain ⟨hm, hs⟩ := hgen (fun x _ => if x = 0 then ⟨0, 0, 255, 0⟩ else ⟨0, 0, 0, 0⟩)
  have hm2 : (StandardDeviation.mean redBlackImage : Pixel ℝ) =
      ⟨finite (1 / 2), finite 0, finite 0⟩ := by
    rw [redBlackImage, hm]
    norm_num
  have hs2 : StandardDeviation Real.sqrt redBlackImage =
      ⟨finite (1 / 2), finite 0, finite 0⟩ := by
    rw [redBlackImage, hs]
    norm_num
  refine ⟨hgen, hm2, hs2, ?_⟩
  rw [hs2, homogeneity_finite]
  norm_num

/-- C10: for every raw sample with 8-bit colour values `(r, g, b)` the constructor
`Pixel(RGBQUAD)` yields `(r/255, g/255, b/255)`, each channel in `[0, 1]`, with 0 mapped to 0
and 255 to 1; the reserved byte does not influence the result; the default constructor yields
`(0, 0, 0)`. -/
theorem Pixel_ofRGBQUAD_normalizes {α : Type} [LinearOrderedField α] (r g b a : Nat)
    (hr : r ≤ 255) (hg : g ≤ 255) (hb : b ≤ 255) :
    (Pixel.ofRGBQUAD { rgbRed := r, rgbGreen := g, rgbBlue := b, rgbReserved := a } : Pixel α) =
        ⟨finite ((r : α) / 255), finite ((g : α) / 255), finite ((b : α) / 255)⟩ ∧
      (0 ≤ (r : α) / 255 ∧ (r : α) / 255 ≤ 1) ∧
      (0 ≤ (g : α) / 255 ∧ (g : α) / 255 ≤ 1) ∧
      (0 ≤ (b : α) / 255 ∧ (b : α) / 255 ≤ 1) ∧
      (∀ a2 : Nat,
        (Pixel.ofRGBQUAD { rgbRed := r, rgbGreen := g, rgbBlue := b, rgbReserved := a2 }
            : Pixel α) =
          Pixel.ofRGBQUAD { rgbRed := r, rgbGreen := g, rgbBlue := b, rgbReserved := a }) ∧
      (Pixel.ofRGBQUAD { rgbRed := 0, rgbGreen := 0, rgbBlue := 0, rgbReserved := a }
          : Pixel α) = ⟨finite 0, finite 0, finite 0⟩ ∧
      (Pixel.ofRGBQUAD { rgbRed := 255, rgbGreen := 255, rgbBlue := 255, rgbReserved := a }
          : Pixel α) = ⟨finite 1, finite 1, finite 1⟩ ∧
      (Pixel.default : Pixel α) = ⟨finite 0, finite 0, finite 0⟩ := by
  have hunit : ∀ n : Nat, n ≤ 255 → (0 ≤ (n : α) / 255 ∧ (n : α) / 255 ≤ 1) := by
    intro n hn
    have hc : (n : α) ≤ 255 := by exact_mod_cast hn
    constructor
    · positivity
    · rw [div_le_one (by norm_num)]
      exact hc
  refine ⟨Pixel.ofRGBQUAD_eq _, hunit r hr, hunit g hg, hunit b hb, ?_, ?_, ?_, rfl⟩
  · intro a2
    rw [Pixel.ofRGBQUAD_eq, Pixel.ofRGBQUAD_eq]
  · rw [Pixel.ofRGBQUAD_eq]
    simp
  · rw [Pixel.ofRGBQUAD_eq]
    simp

/-- Witness of C10 at the sample `(255, 0, 128)` with reserved byte 7, over the rationals. -/
theorem Pixel_ofRGBQUAD_normalizes_witness :
    (255 ≤ 255 ∧ 0 ≤ 255 ∧ 128 ≤ 255) ∧
      (Pixel.ofRGBQUAD { rgbRed := 255, rgbGreen := 0, rgbBlue := 128, rgbReserved := 7 }
          : Pixel ℚ) =
        ⟨finite (((255 : Nat) : ℚ) / 255), finite (((0 : Nat) : ℚ) / 255),
          finite (((128 : Nat) : ℚ) / 255)⟩ :=
  ⟨by decide, (Pixel_ofRGBQUAD_normalizes 255 0 128 7 (by decide) (by decide) (by decide)).1⟩

end Claims

/-! ## Algebra of the addition -/

section Algebra

open PrecisionT

variable {α : Type} [LinearOrderedField α]

theorem PrecisionT.value_add_comm (x y : PrecisionT α) : x + y = y + x := by
  cases x <;> cases y <;> simp [add_comm]

theorem PrecisionT.value_add_assoc (x y z : PrecisionT α) : x + y + z = x + (y + z) := by
  cases x <;> cases y <;> cases z <;> simp [add_assoc]

theorem Pixel.pixel_add_comm (a b : Pixel α) : a + b = b + a := by
  simp only [Pixel.add_def, PrecisionT.value_add_comm a.R, PrecisionT.value_add_comm a.G,
    PrecisionT.value_add_comm a.B]

theorem Pixel.pixel_add_assoc (a b c : Pixel α) : a + b + c = a + (b + c) := by
  simp only [Pixel.add_def, PrecisionT.value_add_assoc]

/-- Adding two pixels to an accumulator in either order gives the same accumulator. -/
theorem Pixel.pixel_add_right_comm (m p q : Pixel α) : m + p + q = m + q + p := by
  rw [Pixel.pixel_add_assoc, Pixel.pixel_add_comm p q, ← Pixel.pixel_add_assoc]

end Algebra


/-! ## Runs of `main` -/

section RunsOfMain

open PrecisionT

variable {α : Type} [LinearOrderedField α]

/-- The run of `main` without a path argument. -/
theorem main_of_length_lt (sqrt : α → α) (env : Loader) (ofNull : Pixel α)
    (argv : List String) (h : argv.length < 2) :
    main sqrt env ofNull argv =
      ([Action.cerr usageMessage, Action.exit EXIT_FAILURE], EXIT_FAILURE) := by
  simp only [main, if_pos h]

/-- The run of `main` with a path argument. -/
theorem main_of_length_ge (sqrt : α → α) (env : Loader) (ofNull : Pixel α)
    (argv : List String) (h : 2 ≤ argv.length) :
    main sqrt env ofNull argv =
      ([Action.getFileType (argv.getD 1 ""),
        Action.load (env.getFileType (argv.getD 1 "")) (argv.getD 1 ""),
        Action.standardDeviation (env.load (env.getFileType (argv.getD 1 "")) (argv.getD 1 "")),
        Action.unload (env.load (env.getFileType (argv.getD 1 "")) (argv.getD 1 "")),
        Action.coutStandardDeviation
          (match env.load (env.getFileType (argv.getD 1 "")) (argv.getD 1 "") with
            | some bitmap => StandardDeviation sqrt bitmap
            | none => ofNull),
        Action.coutHomogeneity (homogeneity
          (match env.load (env.getFileType (argv.getD 1 "")) (argv.getD 1 "") with
            | some bitmap => StandardDeviation sqrt bitmap
            | none => ofNull))], 0) := by
  simp only [main, if_neg (Nat.not_lt.mpr h)]

end RunsOfMain

section ClaimsMain

open PrecisionT

/-- C12, as amended: when the image at the given path cannot be loaded (the loader returns
a null image), `main` raises no error and writes nothing to the error stream: it passes the
null handle to `StandardDeviation` and to `FreeImage_Unload` and prints what comes back. -/
theorem main_passes_null_handle {α : Type} [LinearOrderedField α] (sqrt : α → α)
    (env : Loader) (ofNull : Pixel α) (argv : List String) (hargs : 2 ≤ argv.length)
    (hload : env.load (env.getFileType (argv.getD 1 "")) (argv.getD 1 "") = none) :
    (main sqrt env ofNull argv).1 =
        [Action.getFileType (argv.getD 1 ""),
          Action.load (env.getFileType (argv.getD 1 "")) (argv.getD 1 ""),
          Action.standardDeviation none, Action.unload none,
          Action.coutStandardDeviation ofNull,
          Action.coutHomogeneity (homogeneity ofNull)] ∧
      Action.standardDeviation none ∈ (main sqrt env ofNull argv).1 ∧
      (∀ line, Action.cerr line ∉ (main sqrt env ofNull argv).1) ∧
      (∀ status, Action.exit status ∉ (main sqrt env ofNull argv).1) := by
  rw [main_of_length_ge sqrt env ofNull argv hargs, hload]
  simp

/-- Witness of C12 (amended): the run on a path that cannot be loaded. -/
theorem main_passes_null_handle_witness :
    2 ≤ ["stddev", "missing.png"].length ∧
      failingLoader.load (failingLoader.getFileType (["stddev", "missing.png"].getD 1 ""))
        (["stddev", "missing.png"].getD 1 "") = none ∧
      Action.standardDeviation none ∈
        (main Real.sqrt failingLoader Pixel.default ["stddev", "missing.png"]).1 :=
  ⟨by decide, rfl,
    (main_passes_null_handle Real.sqrt failingLoader Pixel.default ["stddev", "missing.png"]
      (by decide) rfl).2.1⟩

/-- C12, counterexample: with a loader that cannot load `absent.bmp`, the run of `main` on
that path calls `StandardDeviation` with the null handle, and no action of the run writes to
the error stream or exits: no load error is raised. -/
theorem main_failingLoader_run :
    failingLoader.load (failingLoader.getFileType "absent.bmp") "absent.bmp" = none ∧
      ∀ ofNull : Pixel ℝ,
        (main Real.sqrt failingLoader ofNull ["stddev", "absent.bmp"]).1 =
            [Action.getFileType "absent.bmp", Action.load (-1) "absent.bmp",
              Action.standardDeviation none, Action.unload none,
              Action.coutStandardDeviation ofNull,
              Action.coutHomogeneity (homogeneity ofNull)] ∧
          (main Real.sqrt failingLoader ofNull ["stddev", "absent.bmp"]).2 = 0 := by
  refine ⟨rfl, fun ofNull => ?_⟩
  rw [main_of_length_ge Real.sqrt failingLoader ofNull ["stddev", "absent.bmp"] (by decide)]
  exact ⟨rfl, rfl⟩

/-- C13: when `main` is invoked without a path argument (`argc < 2`) it writes the
diagnostic to the error stream and exits with status `EXIT_FAILURE = 1`, and does nothing
else: no image is loaded and no statistic computed; with `argc ≥ 2` the run has no write to
the error stream and no call of `std::exit`, and starts by reading the file type of
`argv[1]`. -/
theorem main_without_path {α : Type} [LinearOrderedField α] (sqrt : α → α) (env : Loader)
    (ofNull : Pixel α) :
    (∀ argv : List String, argv.length < 2 →
        main sqrt env ofNull argv =
          ([Action.cerr usageMessage, Action.exit EXIT_FAILURE], 1)) ∧
      (∀ argv : List String, 2 ≤ argv.length →
        (∀ line, Action.cerr line ∉ (main sqrt env ofNull argv).1) ∧
          (∀ status, Action.exit status ∉ (main sqrt env ofNull argv).1) ∧
          (main sqrt env ofNull argv).1.head? = some (Action.getFileType (argv.getD 1 "")) ∧
          (main sqrt env ofNull argv).2 = 0) := by
  constructor
  · intro argv h
    rw [main_of_length_lt sqrt env ofNull argv h]
    rfl
  · intro argv h
    rw [main_of_length_ge sqrt env ofNull argv h]
    simp

/-- Witness of C13: the run with the program name only, and the run with a path. -/
theorem main_without_path_witness :
    ["stddev"].length < 2 ∧
      main Real.sqrt redBlackLoader Pixel.default ["stddev"] =
        ([Action.cerr usageMessage, Action.exit EXIT_FAILURE], 1) ∧
      2 ≤ ["stddev", "image.png"].length ∧
      (main Real.sqrt redBlackLoader Pixel.default ["stddev", "image.png"]).2 = 0 :=
  ⟨by decide,
    (main_without_path Real.sqrt redBlackLoader Pixel.default).1 ["stddev"] (by decide),
    by decide,
    ((main_without_path Real.sqrt redBlackLoader Pixel.default).2 ["stddev", "image.png"]
      (by decide)).2.2.2⟩

end ClaimsMain

/-! ## The traversal of pass 1 -/

section Traversal

open PrecisionT

variable {α : Type} [LinearOrderedField α]

theorem length_coordinates (w h : Nat) : (coordinates w h).length = h * w := by
  simp [coordinates, List.length_flatMap, Function.comp_def]

theorem mem_coordinates (w h x y : Nat) : (x, y) ∈ coordinates w h ↔ x < w ∧ y < h := by
  simp only [coordinates, List.mem_flatMap, List.mem_range, List.mem_map, Prod.mk.injEq]
  constructor
  · rintro ⟨y2, hy, x2, hx, rfl, rfl⟩
    exact ⟨hx, hy⟩
  · rintro ⟨hx, hy⟩
    exact ⟨y, hy, x, hx, rfl, rfl⟩

theorem coordinates_succ (w h : Nat) :
    coordinates w (h + 1) = coordinates w h ++ (List.range w).map (fun x => (x, h)) := by
  simp [coordinates, List.range_succ, List.flatMap_append]

theorem nodup_coordinates (w h : Nat) : (coordinates w h).Nodup := by
  unfold coordinates
  rw [List.nodup_flatMap]
  constructor
  · intro y _
    refine (List.nodup_range w).map ?_
    intro a b hab
    exact (Prod.mk.inj hab).1
  · refine List.Pairwise.imp_of_mem ?_ (List.nodup_range h)
    intro a b _ _ hab
    simp only [Function.onFun, List.disjoint_left, List.mem_map, not_exists, not_and]
    rintro c ⟨x, _, rfl⟩ x2 _ hc
    exact hab (Prod.mk.inj hc).2.symm

/-- The coordinate at position `y * w + x` of the traversal is `(x, y)`. -/
theorem getElem?_coordinates (w h x y : Nat) (hx : x < w) (hy : y < h) :
    (coordinates w h)[y * w + x]? = some (x, y) := by
  induction h with
  | zero => omega
  | succ h ih =>
    rw [coordinates_succ]
    rcases Nat.lt_succ_iff_lt_or_eq.mp hy with hlt | heq
    · have hle : (y + 1) * w ≤ h * w := Nat.mul_le_mul_right w hlt
      have hidx : y * w + x < (coordinates w h).length := by
        rw [length_coordinates, Nat.succ_mul] at *
        omega
      rw [List.getElem?_append_left hidx]
      exact ih hlt
    · subst heq
      rw [List.getElem?_append_right (by rw [length_coordinates]; omega), length_coordinates,
        Nat.add_sub_cancel_left, List.getElem?_map, List.getElem?_range hx]
      rfl

/-- The nested loops of pass 1 run the loop body once per coordinate, in the order of
`coordinates`. -/
theorem pass1_eq_foldl_coordinates (image : FIBITMAP) :
    (pass1 image : List RGBQUAD × Pixel α) =
      (coordinates image.width image.height).foldl
        (fun st c => pass1Body image c.2 st c.1) ([], Pixel.default) := by
  have hrows : ∀ (ys : List Nat) (st : List RGBQUAD × Pixel α),
      ys.foldl (fun st y => (List.range image.width).foldl (pass1Body image y) st) st =
        (ys.flatMap (fun y => (List.range image.width).map (fun x => (x, y)))).foldl
          (fun st c => pass1Body image c.2 st c.1) st := by
    intro ys
    induction ys with
    | nil => intro st; rfl
    | cons y ys ih =>
      intro st
      rw [List.foldl_cons, ih, List.flatMap_cons, List.foldl_append, List.foldl_map]
  exact hrows _ _

theorem imagePixels_eq_map_coordinates (image : FIBITMAP) :
    imagePixels image =
      (coordinates image.width image.height).map (fun c => image.pixelColor c.1 c.2) := by
  simp [imagePixels, coordinates, List.map_flatMap, List.flatMap_map, Function.comp_def]

/-- The vector `pixels` after pass 1 holds the sample of `(x, y)` at index `y * w + x`. -/
theorem getElem?_pass1 (image : FIBITMAP) (x y : Nat) (hx : x < image.width)
    (hy : y < image.height) :
    (pass1 image : List RGBQUAD × Pixel α).1[y * image.width + x]? =
      some (image.pixelColor x y) := by
  rw [pass1_eq]
  simp only []
  rw [imagePixels_eq_map_coordinates, List.getElem?_map,
    getElem?_coordinates _ _ x y hx hy]
  rfl

end Traversal

section ClaimsTraversal

open PrecisionT

/-- C14: for every image of width `w` and height `h`, pass 1 runs its loop body, which
fetches the sample of `(x, y)`, once for each coordinate with `x < w` and `y < h`, in
row-major order (`y` outer, `x` inner); the vector `pixels` afterwards holds exactly `w * h`
samples, the one of `(x, y)` at index `y * w + x`; and pass 2 folds over exactly that
vector. -/
theorem pass1_row_major {α : Type} [LinearOrderedField α] (image : FIBITMAP) :
    (pass1 image : List RGBQUAD × Pixel α) =
        (coordinates image.width image.height).foldl
          (fun st c => pass1Body image c.2 st c.1) ([], Pixel.default) ∧
      (coordinates image.width image.height).Nodup ∧
      (∀ x y, (x, y) ∈ coordinates image.width image.height ↔
        x < image.width ∧ y < image.height) ∧
      (∀ x y, x < image.width → y < image.height →
        (coordinates image.width image.height)[y * image.width + x]? = some (x, y)) ∧
      (pass1 image : List RGBQUAD × Pixel α).1.length = image.width * image.height ∧
      (∀ x y, x < image.width → y < image.height →
        (pass1 image : List RGBQUAD × Pixel α).1[y * image.width + x]? =
          some (FreeImage_GetPixelColor image x y)) ∧
      (StandardDeviation.squaredDifference image : Pixel α) =
        (pass1 image : List RGBQUAD × Pixel α).1.foldl
          (pass2Body image (pass1 image : List RGBQUAD × Pixel α).2) Pixel.default := by
  refine ⟨pass1_eq_foldl_coordinates image, nodup_coordinates _ _,
    fun x y => mem_coordinates _ _ x y, fun x y hx hy => getElem?_coordinates _ _ x y hx hy,
    ?_, fun x y hx hy => getElem?_pass1 image x y hx hy, rfl⟩
  rw [pass1_eq]
  simp only []
  rw [length_imagePixels, Nat.mul_comm]

/-- Witness of C14 at the 3x2 image with distinct samples: the sample of `(2, 1)` is at
index `1 * 3 + 2 = 5`. -/
theorem pass1_row_major_witness :
    2 < gradientImage.width ∧ 1 < gradientImage.height ∧
      (pass1 gradientImage : List RGBQUAD × Pixel ℚ).1[1 * gradientImage.width + 2]? =
        some (FreeImage_GetPixelColor gradientImage 2 1) :=
  ⟨by decide, by decide,
    (pass1_row_major gradientImage).2.2.2.2.2.1 2 1 (by decide) (by decide)⟩

end ClaimsTraversal

/-! ## Zero area, wrap-around and reordering -/

section Reordering

open PrecisionT

variable {α : Type} [LinearOrderedField α]

theorem totalPixels_of_zero_area (image : FIBITMAP)
    (h : image.width = 0 ∨ image.height = 0) : totalPixels image = 0 := by
  unfold totalPixels FreeImage_GetWidth FreeImage_GetHeight
  rcases h with h | h <;> simp [h]

theorem coordinates_of_zero_area (w h : Nat) (hz : w = 0 ∨ h = 0) : coordinates w h = [] := by
  apply List.eq_nil_of_length_eq_zero
  rw [length_coordinates]
  rcases hz with hz | hz <;> simp [hz]

/-- The divisor depends on the product `width * height` only. -/
theorem totalPixels_congr (image1 image2 : FIBITMAP)
    (h : image1.width * image1.height = image2.width * image2.height) :
    totalPixels image1 = totalPixels image2 := by
  unfold totalPixels FreeImage_GetWidth FreeImage_GetHeight
  rw [h]

/-- The body of pass 2 depends on the image through the divisor only. -/
theorem pass2Body_congr (image1 image2 : FIBITMAP)
    (h : totalPixels image1 = totalPixels image2) :
    (pass2Body image1 : Pixel α → Pixel α → RGBQUAD → Pixel α) = pass2Body image2 := by
  funext mean sq q
  simp only [pass2Body, h]

/-- The accumulation of `mean` does not depend on the order of the samples. -/
theorem foldl_mean_perm (T : Nat) (l1 l2 : List RGBQUAD) (hp : l1.Perm l2) (m : Pixel α) :
    l1.foldl (fun m q => m + (Pixel.ofRGBQUAD q : Pixel α) / T) m =
      l2.foldl (fun m q => m + (Pixel.ofRGBQUAD q : Pixel α) / T) m :=
  hp.foldl_eq' (fun _ _ _ _ z => Pixel.pixel_add_right_comm z _ _) m

/-- The accumulation of `squaredDifference` does not depend on the order of the samples. -/
theorem foldl_sq_perm (image : FIBITMAP) (mean : Pixel α) (l1 l2 : List RGBQUAD)
    (hp : l1.Perm l2) (m : Pixel α) :
    l1.foldl (pass2Body image mean) m = l2.foldl (pass2Body image mean) m :=
  hp.foldl_eq' (fun _ _ _ _ z => Pixel.pixel_add_right_comm z _ _) m

/-- Images with the same divisor and the same samples up to order have the same `mean` and
the same `squaredDifference`. -/
theorem statistics_perm (image1 image2 : FIBITMAP)
    (hT : totalPixels image1 = totalPixels image2)
    (hp : (imagePixels image1).Perm (imagePixels image2)) :
    (StandardDeviation.mean image1 : Pixel α) = StandardDeviation.mean image2 ∧
      (StandardDeviation.squaredDifference image1 : Pixel α) =
        StandardDeviation.squaredDifference image2 := by
  have hm : (pass1 image1 : List RGBQUAD × Pixel α).2 = (pass1 image2).2 := by
    rw [pass1_eq, pass1_eq]
    simp only []
    rw [hT]
    exact foldl_mean_perm _ _ _ hp _
  refine ⟨hm, ?_⟩
  simp only [StandardDeviation.squaredDifference, pass2]
  rw [hm, pass2Body_congr image1 image2 hT, pass1_eq, pass1_eq]
  exact foldl_sq_perm _ _ _ _ hp _

end Reordering

section ClaimsReordering

open PrecisionT

/-- C15: for every image with `width = 0` or `height = 0`, neither loop body of
`StandardDeviation` runs (there is no coordinate to visit and `pixels` stays empty), no
division is performed (`mean` and `squaredDifference` keep their initial value, although the
divisor is 0), the function returns the `Pixel` `(0, 0, 0)`, and the homogeneity that `main`
derives from it is 100. -/
theorem StandardDeviation_of_zero_area (image : FIBITMAP)
    (h : image.width = 0 ∨ image.height = 0) :
    coordinates image.width image.height = [] ∧
      (pass1 image : List RGBQUAD × Pixel ℝ) = ([], Pixel.default) ∧
      totalPixels image = 0 ∧
      (StandardDeviation.mean image : Pixel ℝ) = ⟨finite 0, finite 0, finite 0⟩ ∧
      (StandardDeviation.squaredDifference image : Pixel ℝ) =
        ⟨finite 0, finite 0, finite 0⟩ ∧
      StandardDeviation Real.sqrt image = ⟨finite 0, finite 0, finite 0⟩ ∧
      homogeneity (StandardDeviation Real.sqrt image) = finite 100 := by
  obtain ⟨h1, h2, h3⟩ := zero_area_closed_form Real.sqrt image h
  have hsd : StandardDeviation Real.sqrt image = ⟨finite 0, finite 0, finite 0⟩ := by
    rw [h3, Real.sqrt_zero]
  refine ⟨coordinates_of_zero_area _ _ h, h1, totalPixels_of_zero_area image h, ?_, h2, hsd,
    ?_⟩
  · simp only [StandardDeviation.mean, h1, Pixel.default]
  · rw [hsd, homogeneity_finite]
    norm_num

/-- Witness of C15 at the image of width 5 and height 0. -/
theorem StandardDeviation_of_zero_area_witness :
    (zeroHeightImage.width = 0 ∨ zeroHeightImage.height = 0) ∧
      StandardDeviation Real.sqrt zeroHeightImage = ⟨finite 0, finite 0, finite 0⟩ ∧
      homogeneity (StandardDeviation Real.sqrt zeroHeightImage) = finite 100 :=
  ⟨Or.inr rfl, (StandardDeviation_of_zero_area zeroHeightImage (Or.inr rfl)).2.2.2.2.2⟩

/-- C18: `totalPixels` is the product `width * height` modulo `2^32`; for every image with
`width * height < 2^32` the divisor is the number of samples visited; for the 65536 x 65536
image the product is `2^32`, the divisor wraps to 0 while `2^32` samples are visited, and
the accumulated `mean` (non-finite) is not the arithmetic mean of the samples (0). -/
theorem totalPixels_wraps :
    (∀ image : FIBITMAP, totalPixels image = image.width * image.height % 2 ^ 32) ∧
      (∀ image : FIBITMAP, image.width * image.height < 2 ^ 32 →
        totalPixels image = (pass1 image : List RGBQUAD × Pixel ℝ).1.length) ∧
      squareBlackImage.width * squareBlackImage.height = 2 ^ 32 ∧
      totalPixels squareBlackImage = 0 ∧
      (pass1 squareBlackImage : List RGBQUAD × Pixel ℝ).1.length = 2 ^ 32 ∧
      (StandardDeviation.mean squareBlackImage : Pixel ℝ) =
        ⟨nonfinite, nonfinite, nonfinite⟩ ∧
      arithmeticMean (redValues squareBlackImage : List ℝ) = 0 ∧
      (StandardDeviation.mean squareBlackImage : Pixel ℝ) ≠
        ⟨finite (arithmeticMean (redValues squareBlackImage)),
          finite (arithmeticMean (greenValues squareBlackImage)),
          finite (arithmeticMean (blueValues squareBlackImage))⟩ := by
  have hT : totalPixels squareBlackImage = 0 := by decide
  have hmean := (wrapped_to_zero_closed_form Real.sqrt squareBlackImage hT
    (by decide) (by decide)).1
  have hR : (redValues squareBlackImage : List ℝ) =
      List.replicate (65536 * 65536) (((0 : Nat) : ℝ) / 255) :=
    normalized_imagePixels_of_uniform _ squareBlackImage 0 (fun _ _ _ _ => rfl)
  refine ⟨fun _ => rfl, ?_, by decide, hT, ?_, hmean, ?_, ?_⟩
  · intro image hlt
    rw [pass1_eq]
    exact totalPixels_eq_length image hlt
  · rw [pass1_eq]
    simp only []
    rw [length_imagePixels]
    decide
  · rw [arithmeticMean, hR, List.sum_replicate, List.length_replicate]
    norm_num
  · rw [hmean]
    simp only [ne_eq, Pixel.mk.injEq, reduceCtorEq, false_and, not_false_eq_true]

/-- Witness of C18: for the 2x1 image red, black the divisor is the number of samples. -/
theorem totalPixels_wraps_witness :
    redBlackImage.width * redBlackImage.height < 2 ^ 32 ∧
      totalPixels redBlackImage = (pass1 redBlackImage : List RGBQUAD × Pixel ℝ).1.length :=
  ⟨by decide, totalPixels_wraps.2.1 redBlackImage (by decide)⟩

/-- C19: over exact arithmetic the result depends on the multiset of samples only: for two
images with equal `width * height` whose row-major sample sequences are permutations of each
other, the means are equal and the returned standard deviations are equal. -/
theorem StandardDeviation_perm {α : Type} [LinearOrderedField α] (sqrt : α → α)
    (image1 image2 : FIBITMAP)
    (hN : image1.width * image1.height = image2.width * image2.height)
    (hp : (imagePixels image1).Perm (imagePixels image2)) :
    (StandardDeviation.mean image1 : Pixel α) = StandardDeviation.mean image2 ∧
      StandardDeviation sqrt image1 = StandardDeviation sqrt image2 := by
  obtain ⟨hm, hs⟩ := statistics_perm (α := α) image1 image2 (totalPixels_congr _ _ hN) hp
  refine ⟨hm, ?_⟩
  simp only [StandardDeviation, hs]

/-- Witness of C19 at the 2x1 images red, black and black, red. -/
theorem StandardDeviation_perm_witness :
    redBlackImage.width * redBlackImage.height = blackRedImage.width * blackRedImage.height ∧
      (imagePixels redBlackImage).Perm (imagePixels blackRedImage) ∧
      (StandardDeviation.mean redBlackImage : Pixel ℝ) = StandardDeviation.mean blackRedImage ∧
      StandardDeviation Real.sqrt redBlackImage = StandardDeviation Real.sqrt blackRedImage :=
  ⟨by decide, by decide,
    StandardDeviation_perm Real.sqrt redBlackImage blackRedImage (by decide) (by decide)⟩

end ClaimsReordering

/-! ## Bounds on the deviation -/

section Bounds

open PrecisionT

variable {α : Type} [LinearOrderedField α]

/-- For values of `[0, 1]` the sum of the squared deviations from any `m` is at most
`S - 2 m S + n m^2`, with `S` the sum and `n` the number of the values. -/
theorem sum_sq_dev_le (xs : List α) (h : ∀ x ∈ xs, 0 ≤ x ∧ x ≤ 1) (m : α) :
    (xs.map (fun x => (x - m) ^ 2)).sum ≤
      xs.sum - 2 * m * xs.sum + (xs.length : α) * m ^ 2 := by
  induction xs with
  | nil => simp
  | cons x xs ih =>
    have hx := h x (List.mem_cons_self x xs)
    have ih2 := ih (fun y hy => h y (List.mem_cons_of_mem _ hy))
    have hprod : 0 ≤ x * (1 - x) := mul_nonneg hx.1 (sub_nonneg.mpr hx.2)
    simp only [List.map_cons, List.sum_cons, List.length_cons, Nat.cast_add, Nat.cast_one]
    nlinarith [ih2, hprod]

/-- The accumulated squared deviation of values of `[0, 1]` is at most `1/4`. -/
theorem varianceOver_le_quarter (xs : List α) (T : Nat) (hT : T = xs.length) (hpos : T ≠ 0)
    (h : ∀ x ∈ xs, 0 ≤ x ∧ x ≤ 1) : varianceOver T xs ≤ 1 / 4 := by
  have hTpos : (0 : α) < (T : α) := by exact_mod_cast Nat.pos_of_ne_zero hpos
  have key := sum_sq_dev_le xs h (meanOver T xs)
  have hS : xs.sum = meanOver T xs * (T : α) := by
    unfold meanOver
    field_simp
  rw [← hT] at key
  unfold varianceOver
  rw [div_le_iff₀ hTpos]
  have hsq : 0 ≤ (T : α) * (meanOver T xs - 1 / 2) ^ 2 :=
    mul_nonneg hTpos.le (sq_nonneg _)
  rw [hS] at key
  nlinarith [key, hsq]

/-- A vanishing sum of squared deviations from `m` forces every value to be `m`. -/
theorem eq_of_sum_sq_dev_eq_zero (xs : List α) (m : α)
    (h : (xs.map (fun x => (x - m) ^ 2)).sum = 0) : ∀ x ∈ xs, x = m := by
  induction xs with
  | nil => intro x hx; cases hx
  | cons y ys ih =>
    have hrest : 0 ≤ (ys.map (fun x => (x - m) ^ 2)).sum := by
      apply List.sum_nonneg
      intro z hz
      rcases List.mem_map.mp hz with ⟨x, _, rfl⟩
      exact sq_nonneg _
    simp only [List.map_cons, List.sum_cons] at h
    have hy : (y - m) ^ 2 = 0 := by nlinarith [sq_nonneg (y - m)]
    have hys : (ys.map (fun x => (x - m) ^ 2)).sum = 0 := by nlinarith [sq_nonneg (y - m)]
    intro x hx
    rcases List.mem_cons.mp hx with rfl | hx
    · exact sub_eq_zero.mp ((pow_eq_zero_iff two_ne_zero).mp hy)
    · exact ih hys x hx

/-- When the accumulated squared deviation of a channel vanishes, all samples agree in that
channel. -/
theorem channel_const_of_varianceOver_eq_zero (c : RGBQUAD → Nat) (l : List RGBQUAD)
    (T : Nat) (hT : T ≠ 0) (hv : varianceOver T (normalized c l : List α) = 0)
    (q1 q2 : RGBQUAD) (h1 : q1 ∈ l) (h2 : q2 ∈ l) : c q1 = c q2 := by
  have hTne : (T : α) ≠ 0 := by exact_mod_cast hT
  have hsum : ((normalized c l : List α).map
      (fun x => (x - meanOver T (normalized c l)) ^ 2)).sum = 0 := by
    unfold varianceOver at hv
    rcases div_eq_zero_iff.mp hv with h | h
    · exact h
    · exact absurd h hTne
  have hall := eq_of_sum_sq_dev_eq_zero _ _ hsum
  have e1 : (c q1 : α) / 255 = meanOver T (normalized c l) :=
    hall _ (List.mem_map.mpr ⟨q1, h1, rfl⟩)
  have e2 : (c q2 : α) / 255 = meanOver T (normalized c l) :=
    hall _ (List.mem_map.mpr ⟨q2, h2, rfl⟩)
  have e3 : (c q1 : α) / 255 = (c q2 : α) / 255 := e1.trans e2.symm
  have h255 : (255 : α) ≠ 0 := by norm_num
  have e4 : (c q1 : α) = (c q2 : α) := (div_left_inj' h255).mp e3
  exact_mod_cast e4

/-- Closed form of `mean` and of the result for a 2x1 image. -/
theorem two_by_one_closed_form (f : Nat → Nat → RGBQUAD) :
    (StandardDeviation.mean (FIBITMAP.mk 2 1 f) : Pixel ℝ) =
        ⟨finite ((((f 0 0).rgbRed : ℝ) + (f 1 0).rgbRed) / 510),
          finite ((((f 0 0).rgbGreen : ℝ) + (f 1 0).rgbGreen) / 510),
          finite ((((f 0 0).rgbBlue : ℝ) + (f 1 0).rgbBlue) / 510)⟩ ∧
      StandardDeviation Real.sqrt (FIBITMAP.mk 2 1 f) =
        ⟨finite (|((f 0 0).rgbRed : ℝ) - (f 1 0).rgbRed| / 510),
          finite (|((f 0 0).rgbGreen : ℝ) - (f 1 0).rgbGreen| / 510),
          finite (|((f 0 0).rgbBlue : ℝ) - (f 1 0).rgbBlue| / 510)⟩ := by
  have hroot : ∀ a b : ℝ, Real.sqrt (((a - b) / 510) ^ 2) = |a - b| / 510 := by
    intro a b
    rw [Real.sqrt_sq_eq_abs, abs_div, abs_of_pos (by norm_num : (0 : ℝ) < 510)]
  have hT0 : totalPixels ⟨2, 1, f⟩ ≠ 0 := by
    rw [totalPixels_two_by_one]
    decide
  rw [mean_of_totalPixels_ne_zero _ hT0, StandardDeviation_of_totalPixels_ne_zero _ _ hT0]
  simp only [redValues, greenValues, blueValues, imagePixels_two_by_one, normalized,
    List.map_cons, List.map_nil, totalPixels_two_by_one, meanOver_pair, varianceOver_pair,
    hroot, and_self]

/-- The result for a non-empty image without wrap-around whose samples all have the raw
values `(r, g, b)`. -/
theorem uniform_result (image : FIBITMAP) (r g b : Nat)
    (hN : 1 ≤ image.width * image.height) (hlt : image.width * image.height < 2 ^ 32)
    (huni : ∀ x y, x < image.width → y < image.height →
      (image.pixelColor x y).rgbRed = r ∧ (image.pixelColor x y).rgbGreen = g ∧
        (image.pixelColor x y).rgbBlue = b) :
    StandardDeviation Real.sqrt image = ⟨finite 0, finite 0, finite 0⟩ := by
  have hT : totalPixels image = image.height * image.width := by
    rw [totalPixels_eq image hlt, Nat.mul_comm]
  have hT0 : totalPixels image ≠ 0 := by
    rw [totalPixels_eq image hlt]
    omega
  have hn : ((image.height * image.width : Nat) : ℝ) ≠ 0 := by
    rw [← hT]
    exact_mod_cast hT0
  have hvar : ∀ v : ℝ, varianceOver (totalPixels image)
      (List.replicate (image.height * image.width) v) = 0 := by
    intro v
    rw [varianceOver_replicate, hT, mul_div_cancel_left₀ v hn]
    simp
  rw [(uniform_closed_form Real.sqrt image r g b hT0 huni).2]
  simp only [hvar, Real.sqrt_zero]

end Bounds

section ClaimsBounds

open PrecisionT

/-- C16: for every non-empty valid image each channel of the standard deviation returned by
`StandardDeviation` is a number between 0 and `1/2`, and therefore the derived homogeneity
lies in `[50, 100]`, over the reals; the bound `1/2` is attained by the 2x1 image
`(255, 255, 255)`, `(0, 0, 0)`, whose homogeneity is 50. -/
theorem StandardDeviation_le_half (image : FIBITMAP) (hvalid : ValidImage image) :
    (∃ r g b : ℝ,
        StandardDeviation Real.sqrt image = ⟨finite r, finite g, finite b⟩ ∧
          (0 ≤ r ∧ r ≤ 1 / 2) ∧ (0 ≤ g ∧ g ≤ 1 / 2) ∧ (0 ≤ b ∧ b ≤ 1 / 2) ∧
          ∃ p : ℝ, homogeneity (StandardDeviation Real.sqrt image) = finite p ∧
            50 ≤ p ∧ p ≤ 100) ∧
      StandardDeviation Real.sqrt whiteBlackImage =
        ⟨finite (1 / 2), finite (1 / 2), finite (1 / 2)⟩ ∧
      homogeneity (StandardDeviation Real.sqrt whiteBlackImage) = finite 50 := by
  have hT0 := totalPixels_ne_zero_of_valid image hvalid
  obtain ⟨_, _, hlt, hbyte⟩ := hvalid
  have hlen := totalPixels_eq_length image hlt
  have hmem : ∀ q ∈ imagePixels image, q.rgbRed ≤ 255 ∧ q.rgbGreen ≤ 255 ∧ q.rgbBlue ≤ 255 := by
    intro q hq
    rcases (mem_imagePixels _ _).mp hq with ⟨y, hy, x, hx, rfl⟩
    exact hbyte x y hx hy
  have hroot : ∀ v : ℝ, v ≤ 1 / 4 → 0 ≤ Real.sqrt v ∧ Real.sqrt v ≤ 1 / 2 := by
    intro v hv
    refine ⟨Real.sqrt_nonneg v, Real.sqrt_le_iff.mpr ⟨by norm_num, ?_⟩⟩
    norm_num
    linarith
  have hR := hroot _ (varianceOver_le_quarter (redValues image : List ℝ) (totalPixels image)
    (by rw [redValues, length_normalized, hlen]) hT0
    (normalized_bounds _ _ (fun q hq => (hmem q hq).1)))
  have hG := hroot _ (varianceOver_le_quarter (greenValues image : List ℝ) (totalPixels image)
    (by rw [greenValues, length_normalized, hlen]) hT0
    (normalized_bounds _ _ (fun q hq => (hmem q hq).2.1)))
  have hB := hroot _ (varianceOver_le_quarter (blueValues image : List ℝ) (totalPixels image)
    (by rw [blueValues, length_normalized, hlen]) hT0
    (normalized_bounds _ _ (fun q hq => (hmem q hq).2.2)))
  have hsd := StandardDeviation_of_totalPixels_ne_zero Real.sqrt image hT0
  have hwb : StandardDeviation Real.sqrt whiteBlackImage =
      ⟨finite (1 / 2), finite (1 / 2), finite (1 / 2)⟩ := by
    rw [whiteBlackImage, (two_by_one_closed_form _).2]
    norm_num
  refine ⟨⟨_, _, _, hsd, hR, hG, hB, ?_⟩, hwb, ?_⟩
  · rw [hsd, homogeneity_finite]
    refine ⟨_, rfl, ?_, ?_⟩
    · linarith [hR.2, hG.2, hB.2]
    · linarith [hR.1, hG.1, hB.1]
  · rw [hwb, homogeneity_finite]
    norm_num

/-- Witness of C16 at the 2x1 image red, black. -/
theorem StandardDeviation_le_half_witness :
    ValidImage redBlackImage ∧
      ∃ r g b : ℝ,
        StandardDeviation Real.sqrt redBlackImage = ⟨finite r, finite g, finite b⟩ ∧
          (0 ≤ r ∧ r ≤ 1 / 2) ∧ (0 ≤ g ∧ g ≤ 1 / 2) ∧ (0 ≤ b ∧ b ≤ 1 / 2) ∧
          ∃ p : ℝ, homogeneity (StandardDeviation Real.sqrt redBlackImage) = finite p ∧
            50 ≤ p ∧ p ≤ 100 :=
  ⟨validImage_redBlackImage,
    (StandardDeviation_le_half redBlackImage validImage_redBlackImage).1⟩

/-- C17: for every non-empty valid image, over the reals, `StandardDeviation` returns
`(0, 0, 0)` if and only if all samples of the image have the same red, the same green and
the same blue value; and the derived homogeneity is 100 if and only if the result is
`(0, 0, 0)`. -/
theorem StandardDeviation_eq_zero_iff (image : FIBITMAP) (hvalid : ValidImage image) :
    (StandardDeviation Real.sqrt image = ⟨finite 0, finite 0, finite 0⟩ ↔
        ∃ r g b : Nat, ∀ x y, x < image.width → y < image.height →
          (image.pixelColor x y).rgbRed = r ∧ (image.pixelColor x y).rgbGreen = g ∧
            (image.pixelColor x y).rgbBlue = b) ∧
      (homogeneity (StandardDeviation Real.sqrt image) = finite 100 ↔
        StandardDeviation Real.sqrt image = ⟨finite 0, finite 0, finite 0⟩) := by
  have hT0 := totalPixels_ne_zero_of_valid image hvalid
  obtain ⟨hw, hh, hlt, _⟩ := hvalid
  have hsd := StandardDeviation_of_totalPixels_ne_zero Real.sqrt image hT0
  have hN : 1 ≤ image.width * image.height := Nat.mul_pos hw hh
  constructor
  · constructor
    · intro hzero
      rw [hsd] at hzero
      simp only [Pixel.mk.injEq, finite.injEq] at hzero
      obtain ⟨h1, h2, h3⟩ := hzero
      have v1 := (Real.sqrt_eq_zero (varianceOver_nonneg _ _)).mp h1
      have v2 := (Real.sqrt_eq_zero (varianceOver_nonneg _ _)).mp h2
      have v3 := (Real.sqrt_eq_zero (varianceOver_nonneg _ _)).mp h3
      have h00 : image.pixelColor 0 0 ∈ imagePixels image :=
        (mem_imagePixels _ _).mpr ⟨0, hh, 0, hw, rfl⟩
      refine ⟨(image.pixelColor 0 0).rgbRed, (image.pixelColor 0 0).rgbGreen,
        (image.pixelColor 0 0).rgbBlue, ?_⟩
      intro x y hx hy
      have hxy : image.pixelColor x y ∈ imagePixels image :=
        (mem_imagePixels _ _).mpr ⟨y, hy, x, hx, rfl⟩
      exact ⟨channel_const_of_varianceOver_eq_zero (fun q => q.rgbRed) _ _ hT0 v1 _ _ hxy h00,
        channel_const_of_varianceOver_eq_zero (fun q => q.rgbGreen) _ _ hT0 v2 _ _ hxy h00,
        channel_const_of_varianceOver_eq_zero (fun q => q.rgbBlue) _ _ hT0 v3 _ _ hxy h00⟩
    · rintro ⟨r, g, b, huni⟩
      exact uniform_result image r g b hN hlt huni
  · rw [hsd, homogeneity_finite]
    simp only [Pixel.mk.injEq, finite.injEq]
    have a1 := Real.sqrt_nonneg (varianceOver (totalPixels image) (redValues image : List ℝ))
    have a2 := Real.sqrt_nonneg (varianceOver (totalPixels image) (greenValues image : List ℝ))
    have a3 := Real.sqrt_nonneg (varianceOver (totalPixels image) (blueValues image : List ℝ))
    constructor
    · intro h
      refine ⟨?_, ?_, ?_⟩ <;> linarith
    · rintro ⟨e1, e2, e3⟩
      rw [e1, e2, e3]
      norm_num

/-- Witness of C17 at the 2x1 image red, black, which is not uniform. -/
theorem StandardDeviation_eq_zero_iff_witness :
    ValidImage redBlackImage ∧
      (homogeneity (StandardDeviation Real.sqrt redBlackImage) = finite 100 ↔
        StandardDeviation Real.sqrt redBlackImage = ⟨finite 0, finite 0, finite 0⟩) :=
  ⟨validImage_redBlackImage,
    (StandardDeviation_eq_zero_iff redBlackImage validImage_redBlackImage).2⟩

end ClaimsBounds

/-! ## Rounding: the program in binary64 -/

section Rounding

open PrecisionT

set_option maxRecDepth 100000

/-- The rounded sum of two `double`s does not depend on the order of the operands. -/
theorem binary64_add_comm (a b : Binary64.Double) : a + b = b + a := by
  show Binary64.Double.add a b = Binary64.Double.add b a
  cases a with
  | finite m1 e1 =>
    cases b with
    | finite m2 e2 =>
      have he : (if e1 ≤ e2 then e1 else e2) = (if e2 ≤ e1 then e2 else e1) := by
        split_ifs <;> omega
      simp only [Binary64.Double.add, he]
      rw [add_comm (m1 * 2 ^ (e1 - if e2 ≤ e1 then e2 else e1).toNat)]
    | inf s => rfl
    | nan => rfl
  | inf s1 =>
    cases b with
    | finite m2 e2 => rfl
    | inf s2 =>
      simp only [Binary64.Double.add]
      by_cases h : s1 = s2
      · subst h
        rfl
      · rw [if_neg h, if_neg (fun h2 => h h2.symm)]
    | nan => rfl
  | nan =>
    cases b <;> rfl

/-- In binary64 `operator+` of `Pixel` does not depend on the order of the operands. -/
theorem binary64_pixel_add_comm (x y : Binary64.Pixel) : x + y = y + x := by
  show Binary64.Pixel.add x y = Binary64.Pixel.add y x
  simp only [Binary64.Pixel.add, binary64_add_comm x.R, binary64_add_comm x.G,
    binary64_add_comm x.B]

theorem validImage_whiteNineImage : ValidImage whiteNineImage :=
  ⟨by decide, by decide, by decide,
    fun _ _ _ _ => ⟨Nat.le_refl 255, Nat.le_refl 255, Nat.le_refl 255⟩⟩

end Rounding

section ClaimsRounding

open PrecisionT

set_option maxRecDepth 100000

/-- C3, counterexample: in binary64 the uniform 3x1 image of `(200, 200, 200)`, which is
non-empty with `width * height < 2^32`, has a `mean` one unit in the last place above
`Pixel(200, 200, 200)`, the result `(2^-53, 2^-53, 2^-53)` instead of `(0, 0, 0)`, and a
homogeneity below 100; and over exact arithmetic the uniform 65537 x 65536 image of
`(51, 51, 51)` has a `mean` other than `51/255` and a non-zero result, since the divisor
wraps. -/
theorem uniform_images_not_homogeneous :
    ((∀ x y, grayTripleImage.pixelColor x y = ⟨200, 200, 200, 0⟩) ∧
        1 ≤ grayTripleImage.width * grayTripleImage.height ∧
        grayTripleImage.width * grayTripleImage.height < 2 ^ 32 ∧
        Binary64.Pixel.ofRGBQUAD ⟨200, 200, 200, 0⟩ =
          ⟨Binary64.Double.finite 7064470003718425 (-53),
            Binary64.Double.finite 7064470003718425 (-53),
            Binary64.Double.finite 7064470003718425 (-53)⟩ ∧
        Binary64.StandardDeviation.mean grayTripleImage =
          ⟨Binary64.Double.finite 3532235001859213 (-52),
            Binary64.Double.finite 3532235001859213 (-52),
            Binary64.Double.finite 3532235001859213 (-52)⟩ ∧
        Binary64.StandardDeviation.mean grayTripleImage ≠
          Binary64.Pixel.ofRGBQUAD ⟨200, 200, 200, 0⟩ ∧
        Binary64.StandardDeviation grayTripleImage =
          ⟨Binary64.Double.finite 1 (-53), Binary64.Double.finite 1 (-53),
            Binary64.Double.finite 1 (-53)⟩ ∧
        Binary64.StandardDeviation grayTripleImage ≠ Binary64.Pixel.default ∧
        Binary64.homogeneity (Binary64.StandardDeviation grayTripleImage) =
          Binary64.Double.finite 7036874417766399 (-46) ∧
        Binary64.homogeneity (Binary64.StandardDeviation grayTripleImage) ≠
          Binary64.Double.ofNat 100) ∧
      (1 ≤ tallGrayImage.width * tallGrayImage.height ∧
        (∀ x y, tallGrayImage.pixelColor x y = ⟨51, 51, 51, 0⟩) ∧
        (StandardDeviation.mean tallGrayImage : Pixel ℝ) ≠
          ⟨finite (51 / 255), finite (51 / 255), finite (51 / 255)⟩ ∧
        StandardDeviation Real.sqrt tallGrayImage ≠ ⟨finite 0, finite 0, finite 0⟩ ∧
        homogeneity (StandardDeviation Real.sqrt tallGrayImage) ≠ finite 100) := by
  refine ⟨⟨fun _ _ => rfl, by decide, by decide, by decide, by decide, by decide, by decide,
    by decide, by decide, by decide⟩, ?_⟩
  obtain ⟨h1, h2, _, h4, h5, h6⟩ := tallGrayImage_not_homogeneous
  exact ⟨h1, h2, h4, h5, h6⟩

/-- C7, counterexample: in binary64 the white 9x1 image, a valid image, has
`mean = 1 + 2^-52` in every channel, which is above 1. -/
theorem mean_whiteNineImage_above_one :
    ValidImage whiteNineImage ∧
      Binary64.StandardDeviation.mean whiteNineImage =
        ⟨Binary64.Double.finite (2 ^ 52 + 1) (-52), Binary64.Double.finite (2 ^ 52 + 1) (-52),
          Binary64.Double.finite (2 ^ 52 + 1) (-52)⟩ ∧
      Binary64.Double.le (Binary64.StandardDeviation.mean whiteNineImage).R
        (Binary64.Double.ofNat 1) = false ∧
      Binary64.Double.le (Binary64.Double.ofNat 1)
        (Binary64.StandardDeviation.mean whiteNineImage).R = true :=
  ⟨validImage_whiteNineImage, by decide, by decide, by decide⟩

/-- C9, counterexample: in binary64 the 2x1 image of the gray samples 1 and 36 has a `mean`
other than the double `(1 + 36) / 510` and a result other than the double `(36 - 1) / 510`;
and for red, black the homogeneity is one unit in the last place above the double `250 / 3`,
while `mean` and the result are `(1/2, 0, 0)`. -/
theorem two_pixels_rounded :
    (Binary64.StandardDeviation.mean darkPairImage).R =
        Binary64.Double.finite 2613853901375817 (-55) ∧
      Binary64.Double.ofNat (1 + 36) / (510 : Nat) =
        Binary64.Double.finite 5227707802751635 (-56) ∧
      (Binary64.StandardDeviation.mean darkPairImage).R ≠
        Binary64.Double.ofNat (1 + 36) / (510 : Nat) ∧
      (Binary64.StandardDeviation darkPairImage).R =
        Binary64.Double.finite 4945129002602897 (-56) ∧
      Binary64.Double.ofNat (36 - 1) / (510 : Nat) =
        Binary64.Double.finite 2472564501301449 (-55) ∧
      (Binary64.StandardDeviation darkPairImage).R ≠
        Binary64.Double.ofNat (36 - 1) / (510 : Nat) ∧
      Binary64.StandardDeviation.mean redBlackImage =
        ⟨Binary64.Double.finite 1 (-1), Binary64.Double.finite 0 0,
          Binary64.Double.finite 0 0⟩ ∧
      Binary64.StandardDeviation redBlackImage =
        ⟨Binary64.Double.finite 1 (-1), Binary64.Double.finite 0 0,
          Binary64.Double.finite 0 0⟩ ∧
      Binary64.homogeneity (Binary64.StandardDeviation redBlackImage) =
        Binary64.Double.finite 2932031007402667 (-45) ∧
      Binary64.Double.ofNat 250 / (3 : Nat) = Binary64.Double.finite 5864062014805333 (-46) ∧
      Binary64.homogeneity (Binary64.StandardDeviation redBlackImage) ≠
        Binary64.Double.ofNat 250 / (3 : Nat) :=
  ⟨by decide, by decide, by decide, by decide, by decide, by decide, by decide, by decide,
    by decide, by decide, by decide⟩

/-- C11, counterexample: in binary64, for the pixels `a = (1, 0, 0)` and
`b = c = (2^-53, 0, 0)`, `(a + b) + c` is `(1, 0, 0)` and `a + (b + c)` is
`(1 + 2^-52, 0, 0)`: `operator+` is not associative. -/
theorem Pixel_add_not_assoc :
    ((⟨Binary64.Double.finite 1 0, Binary64.Double.finite 0 0, Binary64.Double.finite 0 0⟩
          + ⟨Binary64.Double.finite 1 (-53), Binary64.Double.finite 0 0,
            Binary64.Double.finite 0 0⟩ : Binary64.Pixel)
        + ⟨Binary64.Double.finite 1 (-53), Binary64.Double.finite 0 0,
          Binary64.Double.finite 0 0⟩ =
        ⟨Binary64.Double.finite 1 0, Binary64.Double.finite 0 0, Binary64.Double.finite 0 0⟩) ∧
      ((⟨Binary64.Double.finite 1 0, Binary64.Double.finite 0 0, Binary64.Double.finite 0 0⟩
          : Binary64.Pixel)
        + (⟨Binary64.Double.finite 1 (-53), Binary64.Double.finite 0 0,
            Binary64.Double.finite 0 0⟩
          + ⟨Binary64.Double.finite 1 (-53), Binary64.Double.finite 0 0,
            Binary64.Double.finite 0 0⟩) =
        ⟨Binary64.Double.finite (2 ^ 52 + 1) (-52), Binary64.Double.finite 0 0,
          Binary64.Double.finite 0 0⟩) ∧
      ((⟨Binary64.Double.finite 1 0, Binary64.Double.finite 0 0, Binary64.Double.finite 0 0⟩
          + ⟨Binary64.Double.finite 1 (-53), Binary64.Double.finite 0 0,
            Binary64.Double.finite 0 0⟩ : Binary64.Pixel)
        + ⟨Binary64.Double.finite 1 (-53), Binary64.Double.finite 0 0,
          Binary64.Double.finite 0 0⟩ ≠
        (⟨Binary64.Double.finite 1 0, Binary64.Double.finite 0 0, Binary64.Double.finite 0 0⟩
          : Binary64.Pixel)
        + (⟨Binary64.Double.finite 1 (-53), Binary64.Double.finite 0 0,
            Binary64.Double.finite 0 0⟩
          + ⟨Binary64.Double.finite 1 (-53), Binary64.Double.finite 0 0,
            Binary64.Double.finite 0 0⟩)) :=
  ⟨by decide, by decide, by decide⟩

/-- C11, as amended: `operator+` of `Pixel` is the elementwise sum of `R`, `G`, `B` and is
commutative, in binary64 and over exact arithmetic; over exact arithmetic it is also
associative: `(a + b) + c = a + (b + c)` for all pixels `a`, `b`, `c`. -/
theorem Pixel_add_comm_exact_assoc {α : Type} [LinearOrderedField α] (x y : Binary64.Pixel)
    (a b c : Pixel α) :
    x + y = ⟨x.R + y.R, x.G + y.G, x.B + y.B⟩ ∧ x + y = y + x ∧
      a + b = ⟨a.R + b.R, a.G + b.G, a.B + b.B⟩ ∧
      (∀ r g b2 r2 g2 b3 : α,
        (⟨finite r, finite g, finite b2⟩ : Pixel α) + ⟨finite r2, finite g2, finite b3⟩ =
          ⟨finite (r + r2), finite (g + g2), finite (b2 + b3)⟩) ∧
      a + b = b + a ∧ a + b + c = a + (b + c) :=
  ⟨rfl, binary64_pixel_add_comm x y, rfl, fun _ _ _ _ _ _ => rfl, Pixel.pixel_add_comm a b,
    Pixel.pixel_add_assoc a b c⟩

end ClaimsRounding

end StdDev
